import Mathlib

/-!
Verification of the snapshot/backup engine of `DavidBrownell_Backup`.

The development shallowly embeds the data model and algorithms of
`Scripts/Backup/Impl/Snapshot.py`, `Common.py`, `Mirror.py` and `Offsite.py`:

* `Snapshot.Node` is the snapshot tree (`Snapshot.py`, class `Node`): a file
  node carries a hash string and a size, a directory node carries the
  `DirHashPlaceholder.explicitly_added` flag and an insertion-ordered
  association list of children (Python `Dict[str, Node]` preserves insertion
  order and has unique keys; the uniqueness is `Node.wf` below).
* Paths (`pathlib.Path`, and `Node.fullpath`) are lists of components; the
  root's `fullpath` (`Path('.')`) is the empty list.
* `CreateDiffs` (`Snapshot.py:270-403`) is embedded by `createDiffsOpt` /
  `createDiffsNone`, with `Snapshot.Diff`'s `compare_hashes=True` comparator
  embedded by `hashCompare`.
-/

namespace Backup

/-- The value stored in `Node.hash_value`: either a hex digest string (file)
or a `DirHashPlaceholder` carrying `explicitly_added` (directory). -/
inductive HashValue where
  | str (s : String)
  | placeholder (explicitlyAdded : Bool)
deriving DecidableEq, Repr

/-- Python `==` on `hash_value` values: `DirHashPlaceholder.__eq__` ignores
`explicitly_added` (any two placeholders are equal); a placeholder is never
equal to a string; strings compare as strings. -/
def HashValue.pyEq : HashValue → HashValue → Bool
  | .str a, .str b => a == b
  | .placeholder _, .placeholder _ => true
  | _, _ => false

/-- `Snapshot.DiffOperation` (also `Common.DiffOperation`). -/
inductive DiffOperation where
  | add
  | remove
  | modify
deriving DecidableEq, Repr

/-- `Snapshot.DiffResult` / `Common.DiffResult` data. `path` is the list of
path components (`Path('.')`, the root, is `[]`). -/
structure DiffResult where
  operation : DiffOperation
  path : List String
  thisHash : Option HashValue
  thisFileSize : Option Nat
  otherHash : Option HashValue
  otherFileSize : Option Nat
deriving DecidableEq, Repr

/-- `Snapshot.Node`: a file (string `hash_value`, non-null `file_size`, no
children) or a directory (`DirHashPlaceholder` hash, null size, children).
The constructor assertions of `Node.__post_init__` make exactly these shapes
representable, per the tagged-variant reading in the design notes. The
`name`/`parent` fields are represented positionally: a node's name is its key
in the parent's `children` mapping and `fullpath` is the list of keys from the
root. -/
inductive Node where
  | file (hash : String) (size : Nat)
  | dir (explicitlyAdded : Bool) (children : List (String × Node))

namespace Node

/-- `Node.is_dir`. -/
def is_dir : Node → Bool
  | .file _ _ => false
  | .dir _ _ => true

/-- `Node.is_file`. -/
def is_file : Node → Bool
  | .file _ _ => true
  | .dir _ _ => false

/-- `Node.hash_value`. -/
def hash_value : Node → HashValue
  | .file h _ => .str h
  | .dir ea _ => .placeholder ea

/-- `Node.file_size` (`None` for directories). -/
def file_size : Node → Option Nat
  | .file _ sz => some sz
  | .dir _ _ => none

/-- `Node.children` (empty for files). -/
def children : Node → List (String × Node)
  | .file _ _ => []
  | .dir _ cs => cs

/-- Executable check that a list of keys has no duplicates. -/
def nodupKeysB : List String → Bool
  | [] => true
  | k :: rest => !(rest.contains k) && nodupKeysB rest

mutual

/-- Well-formedness inherited from Python dictionaries: the keys of every
`children` mapping in the tree are distinct. -/
def wfB : Node → Bool
  | .file _ _ => true
  | .dir _ cs => nodupKeysB (cs.map Prod.fst) && wfBChildren cs

/-- `wfB` over the children. -/
def wfBChildren : List (String × Node) → Bool
  | [] => true
  | (_, c) :: rest => wfB c && wfBChildren rest

end

/-- Well-formedness as a proposition. -/
def wf (n : Node) : Prop := wfB n = true

instance : DecidablePred wf := fun _ => inferInstanceAs (Decidable (_ = true))

end Node

/-- Key containment in a `children` mapping (`child_name in self.children`). -/
def containsKey (cs : List (String × Node)) (k : String) : Bool :=
  cs.any (fun c => c.1 == k)

/-- `UpdateAtomicResult` (`Snapshot.py:336-344`): the running combination of
child summaries. Starting from `None`, the first result is adopted; any
subsequent differing result demotes the summary to `modify`. -/
def updateAtomicResult (a r : Option DiffOperation) : Option DiffOperation :=
  match a with
  | none => r
  | some x => if r = some x then some x else some .modify

/-- `CreateDiffs(self, None)` (`Snapshot.py:280-297`): emit add records for
every leaf reachable from `self` (a single add if `self` is a file or an
empty directory); the accompanying summary is always `add`. `p` is
`self.fullpath`. -/
def createDiffsNone (p : List String) : Node → List DiffResult
  | .file h sz => [⟨.add, p, some (.str h), some sz, none, none⟩]
  | .dir ea cs =>
    if cs.isEmpty then
      [⟨.add, p, some (.placeholder ea), none, none, none⟩]
    else
      createDiffsNoneList p cs
where
  /-- The loop `for value in self.children.values()`. -/
  createDiffsNoneList (p : List String) : List (String × Node) → List DiffResult
    | [] => []
    | (name, c) :: rest => createDiffsNone (p ++ [name]) c ++ createDiffsNoneList p rest

/-- The first loop of the directory/directory case (`Snapshot.py:348-363`):
a remove record for every child of `other` whose name is not a key of
`self.children`. -/
def dirRemoves (p : List String) (cs cs' : List (String × Node)) : List DiffResult :=
  (cs'.filter (fun c => !containsKey cs c.1)).map (fun c =>
    (⟨.remove, p ++ [c.1], none, none, some c.2.hash_value, c.2.file_size⟩ : DiffResult))

/-- The atomic summary after the first loop: each emitted remove calls
`UpdateAtomicResult(remove)`, so the summary is `remove` when any record was
emitted and is still `None` otherwise. -/
def dirInitialSummary (p : List String) (cs cs' : List (String × Node)) :
    Option DiffOperation :=
  if (dirRemoves p cs cs').isEmpty then none else some .remove

mutual

/-- `Node.CreateDiffs(self, other, file_compare_func)` (`Snapshot.py:270-403`)
with `other` optional; `p` is the position (`fullpath`) of both nodes. -/
def createDiffsOpt (cmp : Node → Node → Bool) (p : List String) (self : Node) :
    Option Node → List DiffResult × Option DiffOperation
  | none => (createDiffsNone p self, some .add)
  | some other =>
    match self, other with
    | .file h sz, .file h' sz' =>
      -- both files: compare, then either nothing or a single modify
      if cmp (.file h sz) (.file h' sz') then ([], none)
      else ([⟨.modify, p, some (.str h), some sz, some (.str h'), some sz'⟩], some .modify)
    | .file h sz, .dir ea' _cs' =>
      -- the type has changed: remove `other`, then add records for `self`
      (⟨.remove, p, none, none, some (.placeholder ea'), none⟩ ::
        createDiffsNone p (.file h sz), some .modify)
    | .dir ea cs, .file h' sz' =>
      (⟨.remove, p, none, none, some (.str h'), some sz'⟩ ::
        createDiffsNone p (.dir ea cs), some .modify)
    | .dir ea cs, .dir ea' cs' =>
      -- both directories: removes for keys only in `other`, then recurse into
      -- `self.children`, then the directory-collapse rule
      let res := createDiffsChildren cmp p cs cs' (dirInitialSummary p cs cs')
      let diffs := dirRemoves p cs cs' ++ res.1
      if res.2 = some DiffOperation.remove then
        if ea || ea' then
          -- keep the child diffs; the node itself shows as modified
          (diffs, some .modify)
        else
          -- replace the diffs with a single diff removing this directory
          ([⟨.remove, p, none, none, some (.placeholder ea'), none⟩], some .remove)
      else
        (diffs, res.2)

/-- The loop `for child_name, this_child in self.children.items()`
(`Snapshot.py:365-372`), threading the diff list and the atomic summary. -/
def createDiffsChildren (cmp : Node → Node → Bool) (p : List String)
    (cs : List (String × Node)) (otherCs : List (String × Node))
    (a : Option DiffOperation) : List DiffResult × Option DiffOperation :=
  match cs with
  | [] => ([], a)
  | (name, child) :: rest =>
    let cd := createDiffsOpt cmp (p ++ [name]) child (List.lookup name otherCs)
    let res := createDiffsChildren cmp p rest otherCs (updateAtomicResult a cd.2)
    (cd.1 ++ res.1, res.2)

end

/-- The local `diffs` of the directory/directory branch just before the
collapse rule (`Snapshot.py:348-372`): the removes of the first loop followed
by the concatenated child diffs of the second loop. -/
def rawDiffs (cmp : Node → Node → Bool) (p : List String)
    (cs cs' : List (String × Node)) : List DiffResult :=
  dirRemoves p cs cs' ++ (createDiffsChildren cmp p cs cs' (dirInitialSummary p cs cs')).1

/-- The local `atomic_result` of the directory/directory branch just before
the collapse rule (`Snapshot.py:348-372`). -/
def rawSummary (cmp : Node → Node → Bool) (p : List String)
    (cs cs' : List (String × Node)) : Option DiffOperation :=
  (createDiffsChildren cmp p cs cs' (dirInitialSummary p cs cs')).2

/-- The JSON object written for a node (`Node.ToJson`, `Snapshot.py:222-241`):
a file is `{"hash_value": <hex string>, "file_size": <int>}`; a directory is
`{"hash_value": {"explicitly_added": <bool>}, "children": {<name>: <node>}}`
(`DirHashPlaceholder.ToJson`, `Snapshot.py:63-66`, stores the flag). -/
inductive JNode where
  | file (hash : String) (size : Nat)
  | dir (explicitlyAdded : Bool) (children : List (String × JNode))

/-- The serialized `hash_value` field of a directory object: the
`explicitly_added` flag stored by `DirHashPlaceholder.ToJson`; `none` for a
file object (whose `hash_value` is the hex string). -/
def JNode.storedFlag : JNode → Option Bool
  | .file _ _ => none
  | .dir ea _ => some ea

/-- The serialized `children` mapping (`none` for a file object). -/
def JNode.childrenMap : JNode → Option (List (String × JNode))
  | .file _ _ => none
  | .dir _ cs => some cs

mutual

/-- `Node.ToJson` (`Snapshot.py:222-241`). -/
def Node.ToJson : Node → JNode
  | .file h sz => .file h sz
  | .dir ea cs => .dir ea (toJsonChildren cs)

/-- The dict comprehension `{k: v.ToJson() for k, v in self.children.items()}`. -/
def toJsonChildren : List (String × Node) → List (String × JNode)
  | [] => []
  | (k, v) :: rest => (k, Node.ToJson v) :: toJsonChildren rest

end

mutual

/-- `Node.FromJson` (`Snapshot.py:244-267`): a string `hash_value` restores a
file with the stored size; otherwise `DirHashPlaceholder.FromJson`
(`Snapshot.py:69-74`) reads `value["explicitly_added"]` and the children are
restored recursively. -/
def Node.FromJson : JNode → Node
  | .file h sz => .file h sz
  | .dir ea cs => .dir ea (fromJsonChildren cs)

/-- The dict comprehension `{k: cls.FromJson(k, result, v) for k, v in value["children"].items()}`. -/
def fromJsonChildren : List (String × JNode) → List (String × Node)
  | [] => []
  | (k, v) :: rest => (k, Node.FromJson v) :: fromJsonChildren rest

end

/-- The `explicitly_added` flag of a (root) directory node (`none` for files). -/
def Node.explicitlyAddedFlag : Node → Option Bool
  | .file _ _ => none
  | .dir ea _ => some ea

mutual

/-- Python `==` on `Node` (dataclass equality with `parent` excluded via
`compare=False`): equal `hash_value` (placeholders compare equal regardless
of their flags), equal `file_size`, and equal `children` dictionaries (same
length and, for every key of the left dictionary, an equal value under that
key on the right — which is dict equality when keys are distinct). The `name`
field is positional in this embedding (the key in the parent's mapping). -/
def Node.pyEq : Node → Node → Bool
  | .file h sz, .file h' sz' => h == h' && sz == sz'
  | .dir _ cs, .dir _ cs' => cs.length == cs'.length && pyEqChildren cs cs'
  | _, _ => false

/-- Per-key comparison of `children` dictionaries. -/
def pyEqChildren : List (String × Node) → List (String × Node) → Bool
  | [], _ => true
  | (k, v) :: rest, cs' =>
    (match List.lookup k cs' with
     | some v' => Node.pyEq v v'
     | none => false) && pyEqChildren rest cs'

end

/-- The `compare_hashes=True` comparator of `Snapshot.Diff`
(`Snapshot.py:754-755`): `lambda a, b: a.hash_value == b.hash_value`. -/
def hashCompare (a b : Node) : Bool :=
  HashValue.pyEq a.hash_value b.hash_value

/-- `Snapshot.Diff(self, other, compare_hashes=True)` (`Snapshot.py:746-759`):
the diff records of `self.node.CreateDiffs(other.node, hash comparator)`. -/
def snapshotDiff (a b : Node) : List DiffResult :=
  (createDiffsOpt hashCompare [] a (some b)).1

/-- The diff records of a node pair at position `p` with the hash
comparator. -/
def pairDiffs (p : List String) (a b : Node) : List DiffResult :=
  (createDiffsOpt hashCompare p a (some b)).1

/-- `p` is an ancestor-or-equal path of `q`. -/
def isPathPrefix (p q : List String) : Prop := ∃ r, q = p ++ r

instance : ∀ p q, Decidable (isPathPrefix p q) := fun p q =>
  decidable_of_iff (p <+: q)
    ⟨fun h => ⟨h.choose, h.choose_spec.symm⟩, fun h => ⟨h.choose, h.choose_spec.symm⟩⟩

/-- A `DiffResult` with the `(this_hash, this_file_size)` and
`(other_hash, other_file_size)` pairs exchanged. -/
def DiffResult.swapSides (d : DiffResult) : DiffResult :=
  ⟨d.operation, d.path, d.otherHash, d.otherFileSize, d.thisHash, d.thisFileSize⟩

/-- Mirror correspondence between the two diff directions of a node pair:
modifies appear in the opposite direction with swapped sides at the same
path; every add is covered by a remove at the same or an ancestor path in the
opposite direction; every remove is answered by an add at the same or a
descendant path; and emptiness agrees. -/
def DiffPairSym (p : List String) (a b : Node) : Prop :=
  (∀ d ∈ pairDiffs p a b, d.operation = .modify → d.swapSides ∈ pairDiffs p b a) ∧
  (∀ d ∈ pairDiffs p a b, d.operation = .add →
    ∃ d' ∈ pairDiffs p b a, d'.operation = .remove ∧ isPathPrefix d'.path d.path) ∧
  (∀ d ∈ pairDiffs p a b, d.operation = .remove →
    ∃ d' ∈ pairDiffs p b a, d'.operation = .add ∧ isPathPrefix d.path d'.path) ∧
  (pairDiffs p a b = [] → pairDiffs p b a = [])

/-- Per-side consistency checked by `DiffResult.__post_init__`
(`Common.py:124-144`, `Snapshot.py:109-129`): the file size is present iff
the hash on that side is a string; a null or placeholder hash has a null
size. -/
def sideConsistent (h : Option HashValue) (sz : Option Nat) : Prop :=
  (h = none ∧ sz = none)
  ∨ (∃ b, h = some (.placeholder b) ∧ sz = none)
  ∨ (∃ s n, h = some (.str s) ∧ sz = some n)

/-- The full constructor assertions of `Common.DiffResult.__post_init__`
(`Common.py:117-153`). The first three assertions also appear verbatim in
`Snapshot.DiffResult.__post_init__` (`Snapshot.py:102-129`); the final
modify assertion (both hashes strings and different) is the additional check
of `Common.py:146-153`. -/
def DiffResult.consistent (d : DiffResult) : Prop :=
  ((d.operation = .add ∧ d.thisHash ≠ none ∧ d.otherHash = none)
    ∨ (d.operation = .modify ∧ d.thisHash ≠ none ∧ d.otherHash ≠ none)
    ∨ (d.operation = .remove ∧ d.thisHash = none ∧ d.otherHash ≠ none))
  ∧ sideConsistent d.thisHash d.thisFileSize
  ∧ sideConsistent d.otherHash d.otherFileSize
  ∧ (d.operation = .modify →
      ∃ s s', d.thisHash = some (.str s) ∧ d.otherHash = some (.str s') ∧ s ≠ s')

/-!
### Size precheck (`Common.ValidateSizeRequirements`, `Common.py:432-470`;
inline copy in `Mirror.Backup`, `Mirror.py:218-246`)

Each add/modify diff path is looked up on the local store
(`GetItemType`/`GetFileSize`); directories and no-longer-existing items are
skipped, and file sizes are summed. The Python comparison
`(bytes_available * 0.85) <= bytes_required` is exact real arithmetic here,
scaled by 100 to stay in `Nat`: `85 * available ≤ 100 * required`.
-/

/-- The local-store view of one add/modify diff path. -/
inductive LocalItem where
  | file (size : Nat)
  | dirItem
  | missing
deriving DecidableEq, Repr

/-- `bytes_required`: the sum of the sizes of the items that are files. -/
def bytesRequired : List LocalItem → Nat
  | [] => 0
  | .file sz :: rest => sz + bytesRequired rest
  | .dirItem :: rest => bytesRequired rest
  | .missing :: rest => bytesRequired rest

/-- `ValidateSizeRequirements`: `true` when the size error is reported. The
check is skipped (no error possible) when `GetBytesAvailable()` is `None`. -/
def ValidateSizeRequirements (bytesAvailable : Option Nat) (items : List LocalItem) :
    Bool :=
  match bytesAvailable with
  | none => false
  | some avail => decide (85 * avail ≤ 100 * bytesRequired items)

/-!
### Offsite backup: content-addressed pool (`Offsite.py:269-364`)
-/

/-- The fields of an add/modify `DiffResult` used while preparing offsite
file content: the local path's current type (`diff.path.is_file()`) and the
asserted-string `this_hash`. -/
structure OffsiteFileDiff where
  path : List String
  pathIsFile : Bool
  this_hash : String
deriving DecidableEq, Repr

mutual

/-- Modelled from the spec: `Snapshot.Node.Enum` (spec §4.3, "pre-order
traversal yielding every non-root node") is called at `Offsite.py:273` but
its definition is not part of the sources here; `Offsite.Backup` uses it only
to collect `node.hash_value` for every file node into the offsite file-hash
set (`Offsite.py:270-278`). -/
def Node.fileHashes : Node → List String
  | .file h _ => [h]
  | .dir _ cs => fileHashesChildren cs

/-- Pre-order traversal of the children for `Node.fileHashes`. -/
def fileHashesChildren : List (String × Node) → List String
  | [] => []
  | (_, c) :: rest => Node.fileHashes c ++ fileHashesChildren rest

end

/-- The loop of `Offsite.py:283-295`: keep an add/modify diff for transfer
only when its path is (still) a file and its hash is in neither the offsite
lookup nor scheduled earlier in the same run; scheduling a diff adds its hash
to the lookup. -/
def diffsToProcess (lookup : List String) : List OffsiteFileDiff → List OffsiteFileDiff
  | [] => []
  | d :: rest =>
    if !d.pathIsFile then diffsToProcess lookup rest
    else if d.this_hash ∈ lookup then diffsToProcess lookup rest
    else d :: diffsToProcess (d.this_hash :: lookup) rest

/-- The content-addressed pool path
`Path(diff.this_hash[:2]) / diff.this_hash[2:4] / diff.this_hash`
(`Offsite.py:333`). -/
def poolPath (h : String) : List String :=
  [h.take 2, (h.drop 2).take 2, h]

/-- The pool paths streamed into the working directory during one offsite
backup run (`Move`/`Execute`, `Offsite.py:312-361`): one write per processed
diff, at the content-addressed path of its hash. -/
def offsitePoolWrites (offsiteSnapshot : Node) (addModifyDiffs : List OffsiteFileDiff) :
    List (List String) :=
  (diffsToProcess offsiteSnapshot.fileHashes addModifyDiffs).map (fun d => poolPath d.this_hash)

/-!
### Offsite index (`Offsite.py:366-390`) and diff grouping
(`Common.CalculateDiffs`, `Common.py:366-428`)
-/

/-- The operation-keyed buckets of `Common.CalculateDiffs`; the dictionary is
created with insertion order `remove`, `add`, `modify` (`Common.py:371-376`),
which is also its iteration order. -/
structure GroupedDiffs where
  removeDiffs : List DiffResult
  addDiffs : List DiffResult
  modifyDiffs : List DiffResult

/-- `Common.CalculateDiffs`: append every diff to its operation's bucket. -/
def groupDiffs : List DiffResult → GroupedDiffs
  | [] => ⟨[], [], []⟩
  | d :: rest =>
    let g := groupDiffs rest
    match d.operation with
    | .remove => ⟨d :: g.removeDiffs, g.addDiffs, g.modifyDiffs⟩
    | .add => ⟨g.removeDiffs, d :: g.addDiffs, g.modifyDiffs⟩
    | .modify => ⟨g.removeDiffs, g.addDiffs, d :: g.modifyDiffs⟩

/-- `str(value.path)` (POSIX): the components joined by `/`; the root path
`Path('.')` prints as `.`. -/
def DiffResult.pathStr (d : DiffResult) : String :=
  match d.path with
  | [] => "."
  | parts => String.intercalate "/" parts

/-- Python's `<=` on strings restricted to character lists: lexicographic
comparison by code point. -/
def pyCharListLe : List Char → List Char → Bool
  | [], _ => true
  | _ :: _, [] => false
  | a :: as, b :: bs =>
    if a.toNat = b.toNat then pyCharListLe as bs else decide (a.toNat < b.toNat)

/-- Python's `<=` on strings: lexicographic comparison by code point. -/
def pyStrLe (a b : String) : Bool := pyCharListLe a.data b.data

/-- `these_diffs.sort(key=lambda value: str(value.path))` (`Offsite.py:376`):
a stable sort by the path string. -/
def sortByPathStr (l : List DiffResult) : List DiffResult :=
  l.mergeSort (fun a b => pyStrLe a.pathStr b.pathStr)

/-- The record order written to `index.json` (`Offsite.py:370-381`): the
buckets in dictionary order (`remove`, `add`, `modify`), each sorted by path
string. -/
def buildIndexDiffs (g : GroupedDiffs) : List DiffResult :=
  sortByPathStr g.removeDiffs ++ sortByPathStr g.addDiffs ++ sortByPathStr g.modifyDiffs

/-!
### Offsite restore: replay-set selection (`Offsite.py:717-807`)
-/

/-- One parsed offsite directory name: `is_primary` is true when the
`.delta` suffix group did not match (`Offsite.py:751-762`). -/
structure OffsiteDirEntry where
  name : String
  isPrimary : Bool
deriving DecidableEq, Repr

/-- `offsite_directories.setdefault(directory, []).append(...)`
(`Offsite.py:757-762`): append the entry to the bucket of its name, creating
the bucket at the end on first sight (dictionary insertion order). -/
def addOffsiteDirectory (dict : List (String × List OffsiteDirEntry))
    (e : OffsiteDirEntry) : List (String × List OffsiteDirEntry) :=
  match dict with
  | [] => [(e.name, [e])]
  | (k, es) :: rest =>
    if k = e.name then (k, es ++ [e]) :: rest else (k, es) :: addOffsiteDirectory rest e

/-- The `offsite_directories` dictionary built from the parsed listing. -/
def offsiteDirectoriesDict (entries : List OffsiteDirEntry) :
    List (String × List OffsiteDirEntry) :=
  entries.foldl addOffsiteDirectory []

/-- `keys.sort()` followed by concatenating `offsite_directories[key]` for
each key (`Offsite.py:771-778`). -/
def allDirectories (entries : List OffsiteDirEntry) : List OffsiteDirEntry :=
  let dict := offsiteDirectoriesDict entries
  (((dict.map Prod.fst).mergeSort pyStrLe).map
    (fun k => (List.lookup k dict).getD [])).flatten

/-- The loop `for index, (directory, is_primary) in enumerate(all_directories)`
(`Offsite.py:780-784`): the indexes (counted from `i`) of the primary
entries. -/
def primaryIndexesFrom (i : Nat) : List OffsiteDirEntry → List Nat
  | [] => []
  | e :: rest =>
    if e.isPrimary then i :: primaryIndexesFrom (i + 1) rest
    else primaryIndexesFrom (i + 1) rest

/-- `Restore`'s selection of the replay set (`Offsite.py:767-807`): an error
when the listing is empty, when no primary exists, or when more than one
primary exists; otherwise the directory names from the (unique) primary
onward, in sorted order. `primary_indexes[-1]` is the single element of
`primary_indexes` after the two error checks. -/
def restoreReplaySet (entries : List OffsiteDirEntry) : Except String (List String) :=
  if entries.isEmpty then .error "No directories were found."
  else
    let all := allDirectories entries
    match primaryIndexesFrom 0 all with
    | [] => .error "No primary directories were found."
    | [i] => .ok ((all.drop i).map OffsiteDirEntry.name)
    | _ => .error "Multiple primary directories were found."

/-!
### Mirror backup control flow (`Mirror.Backup`, `Mirror.py:199-615`)

The destination-mutating phases after the diff computation, at the
granularity of one emitted operation per destination item. The claims proved
against this model concern the two early returns: an empty diff set
(`Mirror.py:214-215`) and a failed size precheck (`Mirror.py:244-246`), both
of which return before the cleanup (`Mirror.py:249`) and persist
(`Mirror.py:254-615`) phases run.
-/

/-- A destination mutation performed by `Mirror.Backup`. -/
inductive MirrorOp where
  /-- Cleanup removes an item with the `.__pending_commit__` suffix. -/
  | cleanupRemove (p : List String)
  /-- Cleanup renames an item with the `.__pending_delete__` suffix back. -/
  | cleanupRestore (p : List String)
  /-- Write `BackupSnapshot.json.__pending_commit__` (`Mirror.py:297-336`). -/
  | transferSnapshot
  /-- `force` renames an existing content item to `.__pending_delete__`. -/
  | forceMarkDelete (p : List String)
  /-- Rename a remove/modify target to `.__pending_delete__` (`Mirror.py:400-466`). -/
  | markDelete (p : List String)
  /-- Stream an add/modify source to a temp file, renamed to
  `.__pending_commit__` (`Mirror.py:468-549`). -/
  | transferContent (p : List String)
  /-- Commit phase: strip a pending-commit suffix (`Mirror.py:551-557`). -/
  | commitAdd (p : List String)
  /-- Commit phase: remove a pending-delete item (`Mirror.py:558-562`). -/
  | commitRemove (p : List String)
  /-- Rename the pending snapshot to `BackupSnapshot.json` (`Mirror.py:607-615`). -/
  | commitSnapshot
deriving DecidableEq, Repr

/-- Python `PurePath.suffix`: the extension of the final component, i.e. the
substring from the last dot, provided the dot is neither the first nor the
last character. -/
def pySuffix (name : String) : String :=
  let cs := name.toList
  match (cs.reverse.findIdx? (· = '.')) with
  | none => ""
  | some j =>
    let i := cs.length - 1 - j
    if 0 < i ∧ i < cs.length - 1 then String.mk (cs.drop i) else ""

/-- `_CleanupImpl`'s walk (`Mirror.py:791-834`): remove pending-commit items,
restore pending-delete items, leave everything else alone. Each walked item
is given by its path, whose final component carries any pending suffix. -/
def cleanupOps (walkItems : List (List String)) : List MirrorOp :=
  match walkItems with
  | [] => []
  | p :: rest =>
    if pySuffix (p.getLastD "") = ".__pending_commit__" then
      .cleanupRemove p :: cleanupOps rest
    else if pySuffix (p.getLastD "") = ".__pending_delete__" then
      .cleanupRestore p :: cleanupOps rest
    else
      cleanupOps rest

/-- `Mirror.Backup` after the two snapshots have been computed
(`Mirror.py:199-615`): if the diff set is empty, return immediately
(`Mirror.py:214-215`); if the size precheck reports an error, return
(`Mirror.py:244-246`); otherwise run cleanup, transfer the snapshot as
pending, (under `force`) mark the walked content for deletion, mark
remove/modify targets, transfer add/modify content, commit both pending sets
and finally commit the snapshot. `localItems` is the local-store view of the
add+modify diff paths used by the size precheck. -/
def mirrorBackupOps (g : GroupedDiffs) (bytesAvailable : Option Nat)
    (localItems : List LocalItem) (force : Bool)
    (cleanupWalkItems forceWalkItems : List (List String)) : List MirrorOp :=
  if g.addDiffs.isEmpty && g.modifyDiffs.isEmpty && g.removeDiffs.isEmpty then
    []
  else if ValidateSizeRequirements bytesAvailable localItems then
    []
  else
    cleanupOps cleanupWalkItems
    ++ [MirrorOp.transferSnapshot]
    ++ (if force then forceWalkItems.map MirrorOp.forceMarkDelete else [])
    ++ (g.modifyDiffs ++ g.removeDiffs).map (fun d => MirrorOp.markDelete d.path)
    ++ (g.addDiffs ++ g.modifyDiffs).map (fun d => MirrorOp.transferContent d.path)
    ++ (g.addDiffs ++ g.modifyDiffs).map (fun d => MirrorOp.commitAdd d.path)
    ++ ((if force then forceWalkItems.map MirrorOp.commitRemove else [])
        ++ (g.modifyDiffs ++ g.removeDiffs).map (fun d => MirrorOp.commitRemove d.path))
    ++ [MirrorOp.commitSnapshot]

/-- A destination state: the set of item paths present, with the persisted
snapshot file's content as an abstract version number. -/
structure DestState where
  items : List (List String)
  snapshotVersion : Nat
deriving DecidableEq, Repr

/-- Strip the final component's (Python) suffix, as the pending-suffix
renames do via `fullpath.with_suffix("")`. -/
def stripLastSuffix (p : List String) : List String :=
  p.dropLast ++ [(p.getLastD "").dropRight (pySuffix (p.getLastD "")).length]

/-- The effect of the emitted operations on the destination: every operation
renames, writes or removes items, and `commitSnapshot` publishes a new
snapshot version. -/
def applyMirrorOp (st : DestState) : MirrorOp → DestState
  | .cleanupRemove p => ⟨st.items.filter (· ≠ p), st.snapshotVersion⟩
  | .cleanupRestore p =>
    ⟨st.items.map (fun q => if q = p then stripLastSuffix p else q), st.snapshotVersion⟩
  | .transferSnapshot =>
    ⟨st.items ++ [["BackupSnapshot.json.__pending_commit__"]], st.snapshotVersion⟩
  | .forceMarkDelete p =>
    ⟨st.items.map (fun q => if q = p then p.dropLast ++ [(p.getLastD "") ++ ".__pending_delete__"] else q),
      st.snapshotVersion⟩
  | .markDelete p =>
    ⟨st.items.map (fun q => if q = p then p.dropLast ++ [(p.getLastD "") ++ ".__pending_delete__"] else q),
      st.snapshotVersion⟩
  | .transferContent p => ⟨st.items ++ [p], st.snapshotVersion⟩
  | .commitAdd p =>
    ⟨st.items.map (fun q => if q = p then stripLastSuffix p else q), st.snapshotVersion⟩
  | .commitRemove p => ⟨st.items.filter (· ≠ p), st.snapshotVersion⟩
  | .commitSnapshot => ⟨st.items, st.snapshotVersion + 1⟩

/-- Run a mirror backup's destination effects from a given state. -/
def runMirrorBackup (g : GroupedDiffs) (bytesAvailable : Option Nat)
    (localItems : List LocalItem) (force : Bool)
    (cleanupWalkItems forceWalkItems : List (List String)) (st : DestState) : DestState :=
  (mirrorBackupOps g bytesAvailable localItems force cleanupWalkItems forceWalkItems).foldl
    applyMirrorOp st

/-!
## Supporting lemmas
-/

theorem Node.wf_file (h : String) (sz : Nat) : Node.wf (Node.file h sz) := by
  simp [Node.wf, Node.wfB]

theorem nodupKeysB_iff (l : List String) : Node.nodupKeysB l = true ↔ l.Nodup := by
  induction l with
  | nil => simp [Node.nodupKeysB]
  | cons k rest ih =>
    simp [Node.nodupKeysB, ih, List.nodup_cons, List.contains_eq_any_beq]

theorem wfBChildren_iff (cs : List (String × Node)) :
    Node.wfBChildren cs = true ↔ ∀ c ∈ cs, Node.wf c.2 := by
  induction cs with
  | nil => simp [Node.wfBChildren]
  | cons c rest ih =>
    obtain ⟨k, v⟩ := c
    simp [Node.wfBChildren, ih, Node.wf]

theorem Node.wf_dir {ea : Bool} {cs : List (String × Node)} :
    Node.wf (Node.dir ea cs) ↔ (cs.map Prod.fst).Nodup ∧ ∀ c ∈ cs, Node.wf c.2 := by
  simp [Node.wf, Node.wfB, nodupKeysB_iff, wfBChildren_iff cs, Node.wf]

theorem Node.wf.children_nodup {ea : Bool} {cs : List (String × Node)}
    (h : Node.wf (Node.dir ea cs)) : (cs.map Prod.fst).Nodup := (Node.wf_dir.1 h).1

theorem Node.wf.of_mem {ea : Bool} {cs : List (String × Node)} (h : Node.wf (Node.dir ea cs))
    {c : String × Node} (hc : c ∈ cs) : Node.wf c.2 := (Node.wf_dir.1 h).2 c hc

/-- Size-based induction on the nested `Node` inductive. -/
theorem Node.inductionOn {motive : Node → Prop}
    (hfile : ∀ h sz, motive (.file h sz))
    (hdir : ∀ ea cs, (∀ c ∈ cs, motive c.2) → motive (.dir ea cs)) :
    ∀ n, motive n := by
  have key : ∀ (k : Nat) (n : Node), sizeOf n ≤ k → motive n := by
    intro k
    induction k with
    | zero =>
      intro n hn
      cases n with
      | file h sz => simp [Node.file.sizeOf_spec] at hn
      | dir ea cs => simp [Node.dir.sizeOf_spec] at hn
    | succ k ih =>
      intro n hn
      cases n with
      | file h sz => exact hfile h sz
      | dir ea cs =>
        refine hdir ea cs (fun c hc => ih c.2 ?_)
        have h1 := List.sizeOf_lt_of_mem hc
        have h2 : sizeOf c = 1 + sizeOf c.1 + sizeOf c.2 := rfl
        simp only [Node.dir.sizeOf_spec] at hn
        omega
  exact fun n => key (sizeOf n) n le_rfl

/-- Round-trip: deserializing a serialized node restores it exactly. -/
theorem fromJson_toJson (n : Node) : Node.FromJson (Node.ToJson n) = n := by
  induction n using Node.inductionOn with
  | hfile h sz => simp [Node.ToJson, Node.FromJson]
  | hdir ea cs ih =>
    simp only [Node.ToJson, Node.FromJson, Node.dir.injEq, true_and]
    induction cs with
    | nil => simp [toJsonChildren, fromJsonChildren]
    | cons c rest ihr =>
      obtain ⟨k, v⟩ := c
      simp only [toJsonChildren, fromJsonChildren, List.cons.injEq, Prod.mk.injEq, true_and]
      exact ⟨ih (k, v) (by simp), ihr (fun c hc => ih c (List.mem_cons_of_mem _ hc))⟩

/-- Looking up keys absent from the left dictionary does not change the
per-key comparison. -/
theorem pyEqChildren_cons_right {l : List (String × Node)} {k : String}
    {v : Node} {cs' : List (String × Node)} (hk : k ∉ l.map Prod.fst) :
    pyEqChildren l ((k, v) :: cs') = pyEqChildren l cs' := by
  induction l with
  | nil => simp [pyEqChildren]
  | cons d ds ih =>
    obtain ⟨k', v'⟩ := d
    have hkk : (k' == k) = false := by
      simp only [List.map_cons, List.mem_cons] at hk
      simp only [beq_eq_false_iff_ne, ne_eq]
      exact fun h => hk (Or.inl h.symm)
    have hk' : k ∉ ds.map Prod.fst := by
      simp only [List.map_cons, List.mem_cons] at hk
      exact fun h => hk (Or.inr h)
    simp only [pyEqChildren, List.lookup, hkk, ih hk']

/-- Python `==` on `Node` is reflexive on well-formed nodes (distinct keys). -/
theorem pyEq_refl (n : Node) (hn : Node.wf n) : Node.pyEq n n = true := by
  induction n using Node.inductionOn with
  | hfile h sz => simp [Node.pyEq]
  | hdir ea cs ih =>
    simp only [Node.pyEq, Bool.and_eq_true, beq_self_eq_true, true_and]
    have hnodup := hn.children_nodup
    have hwf : ∀ c ∈ cs, Node.wf c.2 := fun _ hc => hn.of_mem hc
    clear hn
    induction cs with
    | nil => simp [pyEqChildren]
    | cons c rest ihr =>
      obtain ⟨k, v⟩ := c
      simp only [pyEqChildren, Bool.and_eq_true]
      have hknot : k ∉ rest.map Prod.fst := by
        simp only [List.map_cons, List.nodup_cons] at hnodup
        exact hnodup.1
      refine ⟨?_, ?_⟩
      · have hlook : List.lookup k ((k, v) :: rest) = some v := by
          simp [List.lookup]
        rw [hlook]
        exact ih (k, v) (by simp) (hwf (k, v) (by simp))
      · rw [pyEqChildren_cons_right hknot]
        exact ihr (fun c hc => ih c (List.mem_cons_of_mem _ hc))
          (by simpa using hnodup.of_cons)
          (fun c hc => hwf c (List.mem_cons_of_mem _ hc))

theorem pyCharListLe_cons (x y : Char) (xs ys : List Char) :
    pyCharListLe (x :: xs) (y :: ys) =
      if x.toNat = y.toNat then pyCharListLe xs ys else decide (x.toNat < y.toNat) := rfl

theorem pyCharListLe_total (a b : List Char) :
    (pyCharListLe a b || pyCharListLe b a) = true := by
  induction a generalizing b with
  | nil => simp [pyCharListLe]
  | cons x xs ih =>
    cases b with
    | nil => simp [pyCharListLe]
    | cons y ys =>
      by_cases hxy : x.toNat = y.toNat
      · simp [pyCharListLe_cons, hxy, ih ys]
      · by_cases hlt : x.toNat < y.toNat
        · simp [pyCharListLe_cons, hxy, hlt]
        · have hyx : ¬ y.toNat = x.toNat := fun h => hxy h.symm
          have hgt : y.toNat < x.toNat := by omega
          simp [pyCharListLe_cons, hxy, hlt, hyx, hgt]

theorem pyCharListLe_trans (a b c : List Char) (hab : pyCharListLe a b = true)
    (hbc : pyCharListLe b c = true) : pyCharListLe a c = true := by
  induction a generalizing b c with
  | nil => simp [pyCharListLe]
  | cons x xs ih =>
    cases b with
    | nil => simp [pyCharListLe] at hab
    | cons y ys =>
      cases c with
      | nil => simp [pyCharListLe] at hbc
      | cons z zs =>
        rw [pyCharListLe_cons] at hab hbc ⊢
        by_cases hxy : x.toNat = y.toNat
        · rw [if_pos hxy] at hab
          by_cases hyz : y.toNat = z.toNat
          · rw [if_pos hyz] at hbc
            rw [if_pos (hxy.trans hyz)]
            exact ih ys zs hab hbc
          · rw [if_neg hyz] at hbc
            have hlt : y.toNat < z.toNat := of_decide_eq_true hbc
            rw [if_neg (by omega)]
            exact decide_eq_true (by omega)
        · rw [if_neg hxy] at hab
          have hxylt : x.toNat < y.toNat := of_decide_eq_true hab
          by_cases hyz : y.toNat = z.toNat
          · rw [if_pos hyz] at hbc
            rw [if_neg (by omega)]
            exact decide_eq_true (by omega)
          · rw [if_neg hyz] at hbc
            have hlt : y.toNat < z.toNat := of_decide_eq_true hbc
            rw [if_neg (by omega)]
            exact decide_eq_true (by omega)

theorem pyStrLe_total (a b : String) : (pyStrLe a b || pyStrLe b a) = true :=
  pyCharListLe_total a.data b.data

theorem pyStrLe_trans (a b c : String) (hab : pyStrLe a b = true)
    (hbc : pyStrLe b c = true) : pyStrLe a c = true :=
  pyCharListLe_trans a.data b.data c.data hab hbc

/-- A head that is skipped (not a file, or the wrong hash) does not change
whether some file diff carries hash `h`. -/
theorem exists_hash_cons_iff (d : OffsiteFileDiff) (rest : List OffsiteFileDiff)
    (h : String) (hskip : ¬(d.pathIsFile = true ∧ d.this_hash = h)) :
    (∃ x ∈ d :: rest, x.pathIsFile = true ∧ x.this_hash = h) ↔
      (∃ x ∈ rest, x.pathIsFile = true ∧ x.this_hash = h) := by
  constructor
  · rintro ⟨x, hx, hf, hh⟩
    rcases List.mem_cons.1 hx with rfl | hx'
    · exact absurd ⟨hf, hh⟩ hskip
    · exact ⟨x, hx', hf, hh⟩
  · rintro ⟨x, hx, hf, hh⟩
    exact ⟨x, List.mem_cons_of_mem _ hx, hf, hh⟩

/-- Scheduling in `diffsToProcess` emits, for any fixed hash, at most one
record: none when the hash is already in the lookup (or no file diff carries
it), and exactly one otherwise. -/
theorem countP_diffsToProcess (h : String) (diffs : List OffsiteFileDiff) :
    ∀ lookup : List String,
    (diffsToProcess lookup diffs).countP (fun d => d.this_hash == h) =
      if h ∈ lookup then 0
      else if ∃ d ∈ diffs, d.pathIsFile = true ∧ d.this_hash = h then 1 else 0 := by
  induction diffs with
  | nil => intro lookup; simp [diffsToProcess]
  | cons d rest ih =>
    intro lookup
    by_cases hfile : d.pathIsFile = true
    · by_cases hmem : d.this_hash ∈ lookup
      · rw [diffsToProcess, if_neg (by simp [hfile]), if_pos hmem, ih lookup]
        by_cases hl : h ∈ lookup
        · simp [hl]
        · have hdh : ¬(d.pathIsFile = true ∧ d.this_hash = h) :=
            fun he => hl (he.2 ▸ hmem)
          rw [if_neg hl, if_neg hl, if_congr (exists_hash_cons_iff d rest h hdh) rfl rfl]
      · rw [diffsToProcess, if_neg (by simp [hfile]), if_neg hmem]
        rw [List.countP_cons, ih (d.this_hash :: lookup)]
        by_cases hdh : d.this_hash = h
        · subst hdh
          simp only [List.mem_cons, true_or, if_pos, beq_self_eq_true, if_true,
            Nat.zero_add]
          rw [if_neg hmem, if_pos ⟨d, List.mem_cons_self d rest, hfile, rfl⟩]
        · have hmm : (h ∈ d.this_hash :: lookup) ↔ h ∈ lookup := by
            constructor
            · intro hmem'
              rcases List.mem_cons.1 hmem' with he | hl'
              · exact absurd he.symm hdh
              · exact hl'
            · exact List.mem_cons_of_mem _
          rw [if_congr hmm rfl rfl]
          have hbeq : (d.this_hash == h) = false := by
            simpa using hdh
          rw [hbeq]
          by_cases hl : h ∈ lookup
          · simp [hl]
          · rw [if_neg hl, if_neg hl,
              if_congr (exists_hash_cons_iff d rest h (fun he => hdh he.2)) rfl rfl]
            simp
    · rw [diffsToProcess, if_pos (by simp [hfile]), ih lookup]
      by_cases hl : h ∈ lookup
      · simp [hl]
      · rw [if_neg hl, if_neg hl,
          if_congr (exists_hash_cons_iff d rest h (fun he => hfile he.1)) rfl rfl]

/-- The content-addressed pool path determines its hash (its third
component). -/
theorem poolPath_inj (a b : String) : poolPath a = poolPath b ↔ a = b := by
  unfold poolPath
  constructor
  · intro hab
    simp only [List.cons.injEq, and_true] at hab
    exact hab.2.2
  · rintro rfl
    rfl

theorem mem_createDiffsNoneList {d : DiffResult} {p : List String}
    {cs : List (String × Node)} :
    d ∈ createDiffsNone.createDiffsNoneList p cs ↔
      ∃ c ∈ cs, d ∈ createDiffsNone (p ++ [c.1]) c.2 := by
  induction cs with
  | nil => simp [createDiffsNone.createDiffsNoneList]
  | cons c rest ih =>
    obtain ⟨k, v⟩ := c
    simp [createDiffsNone.createDiffsNoneList, ih]

theorem mem_createDiffsChildren {d : DiffResult} {cmp : Node → Node → Bool}
    {p : List String} {cs cs' : List (String × Node)} :
    ∀ {a : Option DiffOperation},
    (d ∈ (createDiffsChildren cmp p cs cs' a).1 ↔
      ∃ c ∈ cs, d ∈ (createDiffsOpt cmp (p ++ [c.1]) c.2 (List.lookup c.1 cs')).1) := by
  induction cs with
  | nil => intro a; simp [createDiffsChildren]
  | cons c rest ih =>
    intro a
    obtain ⟨k, v⟩ := c
    simp only [createDiffsChildren, List.mem_append, List.mem_cons, ih]
    constructor
    · rintro (h | ⟨c', hc', hd⟩)
      · exact ⟨(k, v), Or.inl rfl, h⟩
      · exact ⟨c', Or.inr hc', hd⟩
    · rintro ⟨c', hc' | hc', hd⟩
      · subst hc'
        exact Or.inl hd
      · exact Or.inr ⟨c', hc', hd⟩

theorem consistent_add_file (p : List String) (h : String) (sz : Nat) :
    DiffResult.consistent ⟨.add, p, some (.str h), some sz, none, none⟩ :=
  ⟨Or.inl ⟨rfl, by simp, rfl⟩, Or.inr (Or.inr ⟨h, sz, rfl, rfl⟩), Or.inl ⟨rfl, rfl⟩,
    by intro hop; simp at hop⟩

theorem consistent_add_placeholder (p : List String) (ea : Bool) :
    DiffResult.consistent ⟨.add, p, some (.placeholder ea), none, none, none⟩ :=
  ⟨Or.inl ⟨rfl, by simp, rfl⟩, Or.inr (Or.inl ⟨ea, rfl, rfl⟩), Or.inl ⟨rfl, rfl⟩,
    by intro hop; simp at hop⟩

theorem consistent_remove_placeholder (p : List String) (ea : Bool) :
    DiffResult.consistent ⟨.remove, p, none, none, some (.placeholder ea), none⟩ :=
  ⟨Or.inr (Or.inr ⟨rfl, rfl, by simp⟩), Or.inl ⟨rfl, rfl⟩, Or.inr (Or.inl ⟨ea, rfl, rfl⟩),
    by intro hop; simp at hop⟩

theorem consistent_remove_file (p : List String) (h : String) (sz : Nat) :
    DiffResult.consistent ⟨.remove, p, none, none, some (.str h), some sz⟩ :=
  ⟨Or.inr (Or.inr ⟨rfl, rfl, by simp⟩), Or.inl ⟨rfl, rfl⟩, Or.inr (Or.inr ⟨h, sz, rfl, rfl⟩),
    by intro hop; simp at hop⟩

theorem consistent_remove_node (p : List String) (n : Node) :
    DiffResult.consistent ⟨.remove, p, none, none, some n.hash_value, n.file_size⟩ := by
  cases n with
  | file h sz => exact consistent_remove_file p h sz
  | dir ea cs => exact consistent_remove_placeholder p ea

theorem consistent_modify (p : List String) (h : String) (sz : Nat) (h' : String)
    (sz' : Nat) (hne : h ≠ h') :
    DiffResult.consistent ⟨.modify, p, some (.str h), some sz, some (.str h'), some sz'⟩ :=
  ⟨Or.inr (Or.inl ⟨rfl, by simp, by simp⟩), Or.inr (Or.inr ⟨h, sz, rfl, rfl⟩),
    Or.inr (Or.inr ⟨h', sz', rfl, rfl⟩), fun _ => ⟨h, h', rfl, rfl, hne⟩⟩

/-- Every record emitted by `CreateDiffs(self, None)` is a consistent add. -/
theorem consistent_createDiffsNone :
    ∀ (n : Node) (p : List String) (d : DiffResult),
      d ∈ createDiffsNone p n → d.consistent := by
  intro n
  induction n using Node.inductionOn with
  | hfile h sz =>
    intro p d hd
    rw [createDiffsNone, List.mem_singleton] at hd
    subst hd
    exact consistent_add_file p h sz
  | hdir ea cs ih =>
    intro p d hd
    rw [createDiffsNone] at hd
    by_cases hcs : cs.isEmpty
    · rw [if_pos hcs, List.mem_singleton] at hd
      subst hd
      exact consistent_add_placeholder p ea
    · rw [if_neg hcs, mem_createDiffsNoneList] at hd
      obtain ⟨c, hc, hd⟩ := hd
      exact ih c hc _ _ hd

theorem pyCharListLe_refl (a : List Char) : pyCharListLe a a = true := by
  induction a with
  | nil => rfl
  | cons x xs ih => rw [pyCharListLe_cons, if_pos rfl]; exact ih

theorem pyStrLe_refl (a : String) : pyStrLe a a = true := pyCharListLe_refl a.data

theorem char_toNat_inj {x y : Char} (h : x.toNat = y.toNat) : x = y := by
  rw [← Char.ofNat_toNat x, ← Char.ofNat_toNat y, h]

theorem pyCharListLe_antisymm (a b : List Char) (hab : pyCharListLe a b = true)
    (hba : pyCharListLe b a = true) : a = b := by
  induction a generalizing b with
  | nil =>
    cases b with
    | nil => rfl
    | cons y ys => simp [pyCharListLe] at hba
  | cons x xs ih =>
    cases b with
    | nil => simp [pyCharListLe] at hab
    | cons y ys =>
      rw [pyCharListLe_cons] at hab hba
      by_cases hxy : x.toNat = y.toNat
      · rw [if_pos hxy] at hab
        rw [if_pos hxy.symm] at hba
        rw [char_toNat_inj hxy, ih ys hab hba]
      · rw [if_neg hxy] at hab
        rw [if_neg (fun h => hxy h.symm)] at hba
        have h1 : x.toNat < y.toNat := of_decide_eq_true hab
        have h2 : y.toNat < x.toNat := of_decide_eq_true hba
        omega

theorem pyStrLe_antisymm (a b : String) (hab : pyStrLe a b = true)
    (hba : pyStrLe b a = true) : a = b := by
  cases a with
  | mk la =>
    cases b with
    | mk lb =>
      exact congrArg String.mk (pyCharListLe_antisymm la lb hab hba)

theorem pairwise_of_forall_mem {α : Type} {R : α → α → Prop} (l : List α)
    (h : ∀ x ∈ l, ∀ y ∈ l, R x y) : l.Pairwise R := by
  induction l with
  | nil => exact List.Pairwise.nil
  | cons x xs ih =>
    exact List.Pairwise.cons
      (fun y hy => h x (List.mem_cons_self x xs) y (List.mem_cons_of_mem _ hy))
      (ih (fun a ha b hb => h a (List.mem_cons_of_mem _ ha) b (List.mem_cons_of_mem _ hb)))

theorem lookup_mem {α β : Type} [BEq α] [LawfulBEq α] {l : List (α × β)} {k : α} {v : β}
    (h : List.lookup k l = some v) : (k, v) ∈ l := by
  induction l with
  | nil => simp [List.lookup] at h
  | cons kv rest ih =>
    obtain ⟨k', v'⟩ := kv
    rw [List.lookup] at h
    by_cases hk : (k == k') = true
    · simp only [hk, if_true, Option.some.injEq] at h
      subst h
      have : k = k' := by simpa using hk
      subst this
      exact List.mem_cons_self _ _
    · simp only [hk] at h
      exact List.mem_cons_of_mem _ (ih h)

theorem addOffsiteDirectory_keys (dict : List (String × List OffsiteDirEntry))
    (e : OffsiteDirEntry) :
    ((addOffsiteDirectory dict e).map Prod.fst) = dict.map Prod.fst ∨
    (((addOffsiteDirectory dict e).map Prod.fst) = dict.map Prod.fst ++ [e.name] ∧
      e.name ∉ dict.map Prod.fst) := by
  induction dict with
  | nil => exact Or.inr ⟨rfl, by simp⟩
  | cons kv rest ih =>
    obtain ⟨k, es⟩ := kv
    rw [addOffsiteDirectory]
    by_cases hk : k = e.name
    · rw [if_pos hk]
      exact Or.inl (by simp)
    · rw [if_neg hk]
      rcases ih with h | ⟨h, hnot⟩
      · exact Or.inl (by simp [h])
      · refine Or.inr ⟨by simp [h], ?_⟩
        simp only [List.map_cons, List.mem_cons]
        rintro (h' | h')
        · exact hk h'.symm
        · exact hnot h'

theorem addOffsiteDirectory_nodup {dict : List (String × List OffsiteDirEntry)}
    {e : OffsiteDirEntry} (h : (dict.map Prod.fst).Nodup) :
    ((addOffsiteDirectory dict e).map Prod.fst).Nodup := by
  rcases addOffsiteDirectory_keys dict e with hk | ⟨hk, hnot⟩
  · rw [hk]; exact h
  · rw [hk]
    exact List.Nodup.append h (List.nodup_singleton _)
      (by simpa [List.disjoint_singleton] using hnot)

theorem addOffsiteDirectory_names {dict : List (String × List OffsiteDirEntry)}
    {e : OffsiteDirEntry} (h : ∀ kv ∈ dict, ∀ x ∈ kv.2, x.name = kv.1) :
    ∀ kv ∈ addOffsiteDirectory dict e, ∀ x ∈ kv.2, x.name = kv.1 := by
  induction dict with
  | nil =>
    intro kv hkv x hx
    simp only [addOffsiteDirectory, List.mem_singleton] at hkv
    subst hkv
    simp only [List.mem_singleton] at hx
    subst hx
    rfl
  | cons kv0 rest ih =>
    obtain ⟨k, es⟩ := kv0
    intro kv hkv x hx
    rw [addOffsiteDirectory] at hkv
    by_cases hk : k = e.name
    · rw [if_pos hk] at hkv
      rcases List.mem_cons.1 hkv with rfl | hkv'
      · rcases List.mem_append.1 hx with hx' | hx'
        · exact h (k, es) (List.mem_cons_self _ _) x hx'
        · simp only [List.mem_singleton] at hx'
          subst hx'
          exact hk.symm
      · exact h kv (List.mem_cons_of_mem _ hkv') x hx
    · rw [if_neg hk] at hkv
      rcases List.mem_cons.1 hkv with rfl | hkv'
      · exact h (k, es) (List.mem_cons_self _ _) x hx
      · exact ih (fun kv' hkv'' => h kv' (List.mem_cons_of_mem _ hkv'')) kv hkv' x hx

theorem addOffsiteDirectory_flatten_perm (dict : List (String × List OffsiteDirEntry))
    (e : OffsiteDirEntry) :
    List.Perm (((addOffsiteDirectory dict e).map Prod.snd).flatten)
      ((dict.map Prod.snd).flatten ++ [e]) := by
  induction dict with
  | nil => simp [addOffsiteDirectory]
  | cons kv rest ih =>
    obtain ⟨k, es⟩ := kv
    rw [addOffsiteDirectory]
    by_cases hk : k = e.name
    · rw [if_pos hk]
      simp only [List.map_cons, List.flatten_cons, List.append_assoc]
      exact (List.perm_append_left_iff es).2 (List.perm_append_comm)
    · rw [if_neg hk]
      simp only [List.map_cons, List.flatten_cons, List.append_assoc]
      exact (List.perm_append_left_iff es).2 ih

theorem offsiteDirectoriesDict_props (entries : List OffsiteDirEntry) :
    ((offsiteDirectoriesDict entries).map Prod.fst).Nodup ∧
    (∀ kv ∈ offsiteDirectoriesDict entries, ∀ x ∈ kv.2, x.name = kv.1) ∧
    List.Perm (((offsiteDirectoriesDict entries).map Prod.snd).flatten) entries := by
  have key : ∀ (es : List OffsiteDirEntry) (dict : List (String × List OffsiteDirEntry)),
      (dict.map Prod.fst).Nodup →
      (∀ kv ∈ dict, ∀ x ∈ kv.2, x.name = kv.1) →
      ((es.foldl addOffsiteDirectory dict).map Prod.fst).Nodup ∧
      (∀ kv ∈ es.foldl addOffsiteDirectory dict, ∀ x ∈ kv.2, x.name = kv.1) ∧
      List.Perm (((es.foldl addOffsiteDirectory dict).map Prod.snd).flatten)
        ((dict.map Prod.snd).flatten ++ es) := by
    intro es
    induction es with
    | nil => intro dict h1 h2; exact ⟨h1, h2, by simp⟩
    | cons e rest ih =>
      intro dict h1 h2
      rw [List.foldl_cons]
      obtain ⟨k1, k2, k3⟩ := ih (addOffsiteDirectory dict e)
        (addOffsiteDirectory_nodup h1) (addOffsiteDirectory_names h2)
      refine ⟨k1, k2, ?_⟩
      refine k3.trans ?_
      have := (addOffsiteDirectory_flatten_perm dict e).append_right rest
      refine this.trans (List.Perm.of_eq ?_)
      simp
  exact key entries [] (by simp) (by simp)

theorem lookup_map_self {dict : List (String × List OffsiteDirEntry)}
    (h : (dict.map Prod.fst).Nodup) :
    (dict.map Prod.fst).map (fun k => (List.lookup k dict).getD []) = dict.map Prod.snd := by
  induction dict with
  | nil => rfl
  | cons kv rest ih =>
    obtain ⟨k, es⟩ := kv
    simp only [List.map_cons, List.nodup_cons] at h
    simp only [List.map_cons]
    have hhead : (List.lookup k ((k, es) :: rest)).getD [] = es := by
      simp [List.lookup]
    have htail : ∀ k' ∈ rest.map Prod.fst,
        (List.lookup k' ((k, es) :: rest)).getD [] = (List.lookup k' rest).getD [] := by
      intro k' hk'
      have hne : (k' == k) = false := by
        simp only [beq_eq_false_iff_ne, ne_eq]
        rintro rfl
        exact h.1 hk'
      rw [List.lookup, hne]
    rw [hhead, List.map_congr_left htail, ih h.2]

theorem allDirectories_perm (entries : List OffsiteDirEntry) :
    List.Perm (allDirectories entries) entries := by
  obtain ⟨h1, _, h3⟩ := offsiteDirectoriesDict_props entries
  rw [allDirectories]
  refine List.Perm.trans ?_ h3
  refine List.Perm.flatten (List.Perm.trans (List.Perm.map _ (List.mergeSort_perm _ _)) ?_)
  exact List.Perm.of_eq (lookup_map_self h1)

theorem allDirectories_names_pairwise (entries : List OffsiteDirEntry) :
    (allDirectories entries).Pairwise (fun x y => pyStrLe x.name y.name = true) := by
  obtain ⟨h1, h2, _⟩ := offsiteDirectoriesDict_props entries
  rw [allDirectories]
  rw [List.pairwise_flatten]
  have hnameOf : ∀ (k : String) (x : OffsiteDirEntry),
      x ∈ (List.lookup k (offsiteDirectoriesDict entries)).getD [] → x.name = k := by
    intro k x hx
    cases hlk : List.lookup k (offsiteDirectoriesDict entries) with
    | none => rw [hlk] at hx; simp at hx
    | some g =>
      rw [hlk] at hx
      simp only [Option.getD_some] at hx
      exact h2 (k, g) (lookup_mem hlk) x hx
  refine ⟨?_, ?_⟩
  · intro l hl
    simp only [List.mem_map] at hl
    obtain ⟨k, _, rfl⟩ := hl
    refine pairwise_of_forall_mem _ (fun x hx y hy => ?_)
    rw [hnameOf k x hx, hnameOf k y hy]
    exact pyStrLe_refl k
  · have hsorted : (((offsiteDirectoriesDict entries).map Prod.fst).mergeSort
        pyStrLe).Pairwise (fun a b => pyStrLe a b = true) := by
      have := @List.sorted_mergeSort String pyStrLe
        (fun a b c => pyStrLe_trans a b c) (fun a b => pyStrLe_total a b)
        ((offsiteDirectoriesDict entries).map Prod.fst)
      simpa using this
    refine List.Pairwise.map _ ?_ hsorted
    intro a b hab x hx y hy
    rw [hnameOf a x hx, hnameOf b y hy]
    exact hab

theorem primaryIndexesFrom_length (s : Nat) (l : List OffsiteDirEntry) :
    (primaryIndexesFrom s l).length = l.countP (·.isPrimary) := by
  induction l generalizing s with
  | nil => simp [primaryIndexesFrom]
  | cons e rest ih =>
    rw [primaryIndexesFrom, List.countP_cons]
    by_cases he : e.isPrimary = true
    · simp [he, ih (s + 1)]
    · simp [he, ih (s + 1)]

theorem primaryIndexesFrom_singleton {s : Nat} {l : List OffsiteDirEntry} {j : Nat}
    (h : primaryIndexesFrom s l = [j]) :
    ∃ i x rest, j = s + i ∧ l.drop i = x :: rest ∧ x.isPrimary = true := by
  induction l generalizing s with
  | nil => simp [primaryIndexesFrom] at h
  | cons e rest ih =>
    rw [primaryIndexesFrom] at h
    by_cases he : e.isPrimary = true
    · rw [if_pos he] at h
      simp only [List.cons.injEq] at h
      obtain ⟨hsj, -⟩ := h
      exact ⟨0, e, rest, by omega, rfl, he⟩
    · rw [if_neg he] at h
      obtain ⟨i, x, rest', hj, hd, hx⟩ := ih h
      exact ⟨i + 1, x, rest', by omega, by simpa using hd, hx⟩

theorem eq_of_countP_le_one {α : Type} {l : List α} {p : α → Bool}
    (h : l.countP p ≤ 1) {x y : α} (hx : x ∈ l) (hy : y ∈ l)
    (hpx : p x = true) (hpy : p y = true) : x = y := by
  have hxf : x ∈ l.filter p := List.mem_filter.2 ⟨hx, hpx⟩
  have hyf : y ∈ l.filter p := List.mem_filter.2 ⟨hy, hpy⟩
  rw [List.countP_eq_length_filter] at h
  match hf : l.filter p with
  | [] => rw [hf] at hxf; simp at hxf
  | [z] =>
    rw [hf, List.mem_singleton] at hxf hyf
    rw [hxf, hyf]
  | z1 :: z2 :: zs => rw [hf] at h; simp at h

theorem isPathPrefix_refl (p : List String) : isPathPrefix p p := ⟨[], by simp⟩

theorem isPathPrefix_append (p r : List String) : isPathPrefix p (p ++ r) := ⟨r, rfl⟩

theorem isPathPrefix_trans {p q r : List String} (h1 : isPathPrefix p q)
    (h2 : isPathPrefix q r) : isPathPrefix p r := by
  obtain ⟨s, rfl⟩ := h1
  obtain ⟨t, rfl⟩ := h2
  exact ⟨s ++ t, by simp⟩

theorem createDiffsNone_ne_nil : ∀ (n : Node) (p : List String), createDiffsNone p n ≠ [] := by
  intro n
  induction n using Node.inductionOn with
  | hfile h sz => intro p; simp [createDiffsNone]
  | hdir ea cs ih =>
    intro p
    rw [createDiffsNone]
    by_cases hcs : cs.isEmpty
    · simp [hcs]
    · rw [if_neg hcs]
      match cs, hcs with
      | (k, v) :: rest, _ =>
        rw [createDiffsNone.createDiffsNoneList]
        intro hnil
        rcases List.append_eq_nil.1 hnil with ⟨h1, _⟩
        exact absurd h1 (ih (k, v) (List.mem_cons_self _ _) _)

theorem createDiffsNone_spec : ∀ (n : Node) (p : List String) (d : DiffResult),
    d ∈ createDiffsNone p n → d.operation = .add ∧ isPathPrefix p d.path := by
  intro n
  induction n using Node.inductionOn with
  | hfile h sz =>
    intro p d hd
    rw [createDiffsNone, List.mem_singleton] at hd
    subst hd
    exact ⟨rfl, isPathPrefix_refl p⟩
  | hdir ea cs ih =>
    intro p d hd
    rw [createDiffsNone] at hd
    by_cases hcs : cs.isEmpty
    · rw [if_pos hcs, List.mem_singleton] at hd
      subst hd
      exact ⟨rfl, isPathPrefix_refl p⟩
    · rw [if_neg hcs, mem_createDiffsNoneList] at hd
      obtain ⟨c, hc, hd⟩ := hd
      obtain ⟨hop, hpre⟩ := ih c hc _ _ hd
      exact ⟨hop, isPathPrefix_trans (isPathPrefix_append p [c.1]) hpre⟩

theorem createDiffsOpt_paths (cmp : Node → Node → Bool) :
    ∀ (a : Node) (ob : Option Node) (p : List String) (d : DiffResult),
      d ∈ (createDiffsOpt cmp p a ob).1 → isPathPrefix p d.path := by
  intro a
  induction a using Node.inductionOn with
  | hfile h sz =>
    intro ob p d hd
    cases ob with
    | none =>
      simp only [createDiffsOpt] at hd
      exact (createDiffsNone_spec _ p d hd).2
    | some other =>
      cases other with
      | file h' sz' =>
        simp only [createDiffsOpt] at hd
        by_cases hcmp : cmp (.file h sz) (.file h' sz') = true
        · simp [hcmp] at hd
        · simp only [hcmp, Bool.false_eq_true, if_false, List.mem_singleton] at hd
          subst hd
          exact isPathPrefix_refl p
      | dir ea' cs' =>
        simp only [createDiffsOpt, List.mem_cons] at hd
        rcases hd with rfl | hd
        · exact isPathPrefix_refl p
        · exact (createDiffsNone_spec _ p d hd).2
  | hdir ea cs ih =>
    intro ob p d hd
    cases ob with
    | none =>
      simp only [createDiffsOpt] at hd
      exact (createDiffsNone_spec _ p d hd).2
    | some other =>
      cases other with
      | file h' sz' =>
        simp only [createDiffsOpt, List.mem_cons] at hd
        rcases hd with rfl | hd
        · exact isPathPrefix_refl p
        · exact (createDiffsNone_spec _ p d hd).2
      | dir ea' cs' =>
        have hmain : ∀ d : DiffResult,
            d ∈ dirRemoves p cs cs' ++
              (createDiffsChildren cmp p cs cs' (dirInitialSummary p cs cs')).1 →
            isPathPrefix p d.path := by
          intro d hd
          rcases List.mem_append.1 hd with hd | hd
          · rw [dirRemoves] at hd
            simp only [List.mem_map, List.mem_filter] at hd
            obtain ⟨c, ⟨_, _⟩, rfl⟩ := hd
            exact isPathPrefix_append p [c.1]
          · rw [mem_createDiffsChildren] at hd
            obtain ⟨c, hc, hd⟩ := hd
            exact isPathPrefix_trans (isPathPrefix_append p [c.1]) (ih c hc _ _ _ hd)
        simp only [createDiffsOpt] at hd
        by_cases hrem : (createDiffsChildren cmp p cs cs'
            (dirInitialSummary p cs cs')).2 = some DiffOperation.remove
        · by_cases hea : (ea || ea') = true
          · rw [if_pos hrem, if_pos hea] at hd
            exact hmain d hd
          · rw [if_pos hrem, if_neg hea, List.mem_singleton] at hd
            subst hd
            exact isPathPrefix_refl p
        · rw [if_neg hrem] at hd
          exact hmain d hd

/-- A summary of `remove` is only ever returned together with the single
collapsed record removing the directory itself. -/
theorem summary_remove_spec (cmp : Node → Node → Bool) (p : List String) (a b : Node)
    (h : (createDiffsOpt cmp p a (some b)).2 = some .remove) :
    (createDiffsOpt cmp p a (some b)).1 =
      [⟨.remove, p, none, none, some b.hash_value, b.file_size⟩] := by
  cases a with
  | file ha sza =>
    cases b with
    | file hb szb =>
      simp only [createDiffsOpt] at h ⊢
      by_cases hcmp : cmp (.file ha sza) (.file hb szb) = true
      · simp [hcmp] at h
      · simp [hcmp] at h
    | dir eb csb => simp [createDiffsOpt] at h
  | dir ea csa =>
    cases b with
    | file hb szb => simp [createDiffsOpt] at h
    | dir eb csb =>
      simp only [createDiffsOpt] at h ⊢
      by_cases hrem : (createDiffsChildren cmp p csa csb
          (dirInitialSummary p csa csb)).2 = some DiffOperation.remove
      · by_cases hea : (ea || eb) = true
        · rw [if_pos hrem, if_pos hea] at h
          simp at h
        · rw [if_pos hrem, if_neg hea] at h ⊢
          rfl
      · rw [if_neg hrem] at h
        exact absurd h hrem

theorem updateAtomicResult_eq_none {a r : Option DiffOperation} :
    updateAtomicResult a r = none ↔ a = none ∧ r = none := by
  cases a with
  | none => simp [updateAtomicResult]
  | some x =>
    rw [updateAtomicResult]
    by_cases hr : r = some x <;> simp [hr]

theorem updateAtomicResult_eq_remove {a r : Option DiffOperation}
    (h : updateAtomicResult a r = some .remove) :
    (a = none ∨ a = some .remove) ∧ (r = none ∨ r = some .remove) ∧
    (a = some .remove ∨ r = some .remove) := by
  cases a with
  | none =>
    rw [updateAtomicResult] at h
    subst h
    exact ⟨Or.inl rfl, Or.inr rfl, Or.inr rfl⟩
  | some x =>
    rw [updateAtomicResult] at h
    by_cases hr : r = some x
    · rw [if_pos hr] at h
      rw [h] at hr ⊢
      exact ⟨Or.inr rfl, Or.inr hr, Or.inl rfl⟩
    · rw [if_neg hr] at h
      simp at h

theorem createDiffsChildren_summary_none {cmp : Node → Node → Bool} {p : List String}
    {cs cs' : List (String × Node)} :
    ∀ {a : Option DiffOperation},
    ((createDiffsChildren cmp p cs cs' a).2 = none ↔
      a = none ∧ ∀ c ∈ cs,
        (createDiffsOpt cmp (p ++ [c.1]) c.2 (List.lookup c.1 cs')).2 = none) := by
  induction cs with
  | nil => intro a; simp [createDiffsChildren]
  | cons c rest ih =>
    intro a
    obtain ⟨k, v⟩ := c
    rw [createDiffsChildren]
    constructor
    · intro h
      obtain ⟨hupd, hrest⟩ := ih.1 h
      obtain ⟨ha, hr⟩ := updateAtomicResult_eq_none.1 hupd
      refine ⟨ha, ?_⟩
      intro c hc
      rcases List.mem_cons.1 hc with rfl | hc'
      · exact hr
      · exact hrest c hc'
    · rintro ⟨ha, hall⟩
      refine ih.2 ⟨?_, fun c hc => hall c (List.mem_cons_of_mem _ hc)⟩
      rw [updateAtomicResult_eq_none]
      exact ⟨ha, hall (k, v) (List.mem_cons_self _ _)⟩

theorem createDiffsChildren_summary_remove {cmp : Node → Node → Bool} {p : List String}
    {cs cs' : List (String × Node)} :
    ∀ {a : Option DiffOperation},
    (createDiffsChildren cmp p cs cs' a).2 = some .remove →
    (a = none ∨ a = some .remove) ∧
    (∀ c ∈ cs,
      (createDiffsOpt cmp (p ++ [c.1]) c.2 (List.lookup c.1 cs')).2 = none ∨
      (createDiffsOpt cmp (p ++ [c.1]) c.2 (List.lookup c.1 cs')).2 = some .remove) ∧
    (a = some .remove ∨ ∃ c ∈ cs,
      (createDiffsOpt cmp (p ++ [c.1]) c.2 (List.lookup c.1 cs')).2 = some .remove) := by
  induction cs with
  | nil =>
    intro a h
    rw [createDiffsChildren] at h
    exact ⟨Or.inr h, by simp, Or.inl h⟩
  | cons c rest ih =>
    intro a h
    obtain ⟨k, v⟩ := c
    rw [createDiffsChildren] at h
    obtain ⟨hupd, hall, hsrc⟩ := ih h
    rcases hupd with hupd | hupd
    · -- the threaded summary after this child is still `none`
      obtain ⟨ha, hr⟩ := updateAtomicResult_eq_none.1 hupd
      refine ⟨Or.inl ha, ?_, ?_⟩
      · intro c hc
        rcases List.mem_cons.1 hc with rfl | hc'
        · exact Or.inl hr
        · exact hall c hc'
      · rcases hsrc with hsrc | ⟨c, hc, hcrem⟩
        · rw [hupd] at hsrc
          simp at hsrc
        · exact Or.inr ⟨c, List.mem_cons_of_mem _ hc, hcrem⟩
    · obtain ⟨ha, hr, hsrc2⟩ := updateAtomicResult_eq_remove hupd
      refine ⟨ha, ?_, ?_⟩
      · intro c hc
        rcases List.mem_cons.1 hc with rfl | hc'
        · exact hr
        · exact hall c hc'
      · rcases hsrc2 with h2 | h2
        · exact Or.inl h2
        · exact Or.inr ⟨(k, v), List.mem_cons_self _ _, h2⟩

theorem containsKey_iff {cs : List (String × Node)} {k : String} :
    containsKey cs k = true ↔ ∃ v, (k, v) ∈ cs := by
  rw [containsKey, List.any_eq_true]
  constructor
  · rintro ⟨⟨k', v⟩, hc, hk⟩
    simp only [beq_iff_eq] at hk
    subst hk
    exact ⟨v, hc⟩
  · rintro ⟨v, hv⟩
    exact ⟨(k, v), hv, by simp⟩

theorem lookup_eq_none_iff {cs : List (String × Node)} {k : String} :
    List.lookup k cs = none ↔ containsKey cs k = false := by
  induction cs with
  | nil => simp [List.lookup, containsKey]
  | cons c rest ih =>
    obtain ⟨k', v⟩ := c
    rw [List.lookup]
    by_cases hk : (k == k') = true
    · simp only [hk, if_true]
      constructor
      · intro h; exact absurd h (by simp)
      · intro h
        rw [containsKey] at h
        simp only [List.any_cons, Bool.or_eq_false_iff] at h
        have hkk : (k == k') = false := by
          have h1 := h.1
          simp only [beq_eq_false_iff_ne, ne_eq] at h1 ⊢
          exact fun he => h1 he.symm
        rw [hk] at hkk
        exact absurd hkk (by simp)
    · simp only [hk, if_neg, Bool.false_eq_true]
      rw [ih, containsKey, containsKey]
      simp only [List.any_cons]
      constructor
      · intro h
        rw [h]
        have hk' : ((k', v).1 == k) = false := by
          simp only [beq_eq_false_iff_ne, ne_eq]
          intro he
          rw [he] at hk
          simp at hk
        rw [hk']
        rfl
      · intro h
        rcases Bool.or_eq_false_iff.1 h with ⟨_, h2⟩
        exact h2

theorem lookup_eq_of_mem_nodup {cs : List (String × Node)} {k : String} {v : Node}
    (hmem : (k, v) ∈ cs) (hn : (cs.map Prod.fst).Nodup) :
    List.lookup k cs = some v := by
  induction cs with
  | nil => simp at hmem
  | cons c rest ih =>
    obtain ⟨k', v'⟩ := c
    simp only [List.map_cons, List.nodup_cons] at hn
    rcases List.mem_cons.1 hmem with heq | hmem'
    · obtain ⟨rfl, rfl⟩ := Prod.mk.injEq .. ▸ heq
      simp [List.lookup]
    · have hk : (k == k') = false := by
        simp only [beq_eq_false_iff_ne, ne_eq]
        rintro rfl
        exact hn.1 (List.mem_map.2 ⟨(k, v), hmem', rfl⟩)
      rw [List.lookup, hk]
      exact ih hmem' hn.2

theorem mem_dirRemoves {d : DiffResult} {p : List String} {cs cs' : List (String × Node)} :
    d ∈ dirRemoves p cs cs' ↔
      ∃ c ∈ cs', containsKey cs c.1 = false ∧
        d = ⟨.remove, p ++ [c.1], none, none, some c.2.hash_value, c.2.file_size⟩ := by
  rw [dirRemoves]
  simp only [List.mem_map, List.mem_filter, Bool.not_eq_true']
  constructor
  · rintro ⟨c, ⟨hc, hnc⟩, rfl⟩
    exact ⟨c, hc, hnc, rfl⟩
  · rintro ⟨c, hc, hnc, rfl⟩
    exact ⟨c, ⟨hc, hnc⟩, rfl⟩

theorem dirRemoves_eq_nil_iff {p : List String} {cs cs' : List (String × Node)} :
    dirRemoves p cs cs' = [] ↔ ∀ c ∈ cs', containsKey cs c.1 = true := by
  rw [dirRemoves]
  simp only [List.map_eq_nil_iff, List.filter_eq_nil_iff, Bool.not_eq_true',
    Bool.not_eq_false]

/-- The assertion of `Snapshot.py:398-401`: the atomic summary is `None`
exactly when no diff was emitted. -/
theorem summary_none_iff_nil (cmp : Node → Node → Bool) :
    ∀ (a : Node) (ob : Option Node) (p : List String),
      ((createDiffsOpt cmp p a ob).2 = none ↔ (createDiffsOpt cmp p a ob).1 = []) := by
  intro a
  induction a using Node.inductionOn with
  | hfile h sz =>
    intro ob p
    cases ob with
    | none =>
      simp only [createDiffsOpt]
      constructor
      · intro h'; simp at h'
      · intro h'; exact absurd h' (createDiffsNone_ne_nil _ p)
    | some other =>
      cases other with
      | file h' sz' =>
        simp only [createDiffsOpt]
        by_cases hcmp : cmp (.file h sz) (.file h' sz') = true
        · simp [hcmp]
        · simp [hcmp]
      | dir ea' cs' => simp [createDiffsOpt]
  | hdir ea cs ih =>
    intro ob p
    cases ob with
    | none =>
      simp only [createDiffsOpt]
      constructor
      · intro h'; simp at h'
      · intro h'; exact absurd h' (createDiffsNone_ne_nil _ p)
    | some other =>
      cases other with
      | file h' sz' => simp [createDiffsOpt]
      | dir ea' cs' =>
        simp only [createDiffsOpt]
        by_cases hrem : (createDiffsChildren cmp p cs cs'
            (dirInitialSummary p cs cs')).2 = some DiffOperation.remove
        · -- summary `remove`: the result summary is `modify` or `remove`, and
          -- the diff list is non-empty in both branches
          obtain ⟨ha0, hall, hsrc⟩ := createDiffsChildren_summary_remove hrem
          have hFne : dirRemoves p cs cs' ++
              (createDiffsChildren cmp p cs cs' (dirInitialSummary p cs cs')).1 ≠ [] := by
            rcases hsrc with hsrc | ⟨c, hc, hcrem⟩
            · intro hnil
              rcases List.append_eq_nil.1 hnil with ⟨h1, _⟩
              rw [dirInitialSummary, if_pos (by rw [h1]; rfl)] at hsrc
              simp at hsrc
            · intro hnil
              rcases List.append_eq_nil.1 hnil with ⟨_, h2⟩
              cases hlk : List.lookup c.1 cs' with
              | none =>
                rw [hlk] at hcrem
                obtain ⟨k, v⟩ := c
                cases v <;> simp [createDiffsOpt] at hcrem
              | some w =>
                rw [hlk] at hcrem
                have hsing := summary_remove_spec cmp (p ++ [c.1]) c.2 w hcrem
                have hckmem : (⟨.remove, p ++ [c.1], none, none,
                    some w.hash_value, w.file_size⟩ : DiffResult) ∈
                    (createDiffsChildren cmp p cs cs' (dirInitialSummary p cs cs')).1 := by
                  rw [mem_createDiffsChildren]
                  refine ⟨c, hc, ?_⟩
                  rw [hlk, hsing]
                  exact List.mem_singleton.2 rfl
                rw [h2] at hckmem
                simp at hckmem
          by_cases hea : (ea || ea') = true
          · rw [if_pos hrem, if_pos hea]
            simp only []
            constructor
            · intro h'; simp at h'
            · intro h'; exact absurd h' hFne
          · rw [if_pos hrem, if_neg hea]
            simp only []
            constructor
            · intro h'; simp at h'
            · intro h'; simp at h'
        · rw [if_neg hrem]
          simp only []
          constructor
          · intro h2
            obtain ⟨ha0, hall⟩ := createDiffsChildren_summary_none.1 h2
            have h1 : dirRemoves p cs cs' = [] := by
              rw [dirInitialSummary] at ha0
              by_cases hdr : (dirRemoves p cs cs').isEmpty
              · simpa using hdr
              · rw [if_neg hdr] at ha0
                simp at ha0
            rw [h1, List.nil_append, List.eq_nil_iff_forall_not_mem]
            intro d hd
            rw [mem_createDiffsChildren] at hd
            obtain ⟨c, hc, hd⟩ := hd
            have := (ih c hc _ _).1 (hall c hc)
            rw [this] at hd
            simp at hd
          · intro h2
            rcases List.append_eq_nil.1 h2 with ⟨h1, hch⟩
            rw [createDiffsChildren_summary_none]
            constructor
            · rw [dirInitialSummary, if_pos (by rw [h1]; rfl)]
            · intro c hc
              refine (ih c hc _ _).2 ?_
              rw [List.eq_nil_iff_forall_not_mem]
              intro d hd
              have : d ∈ (createDiffsChildren cmp p cs cs'
                  (dirInitialSummary p cs cs')).1 :=
                mem_createDiffsChildren.2 ⟨c, hc, hd⟩
              rw [hch] at this
              simp at this

theorem pyEq_symm : ∀ x y : HashValue, x.pyEq y = y.pyEq x := by
  intro x y
  cases x with
  | str s =>
    cases y with
    | str t =>
      show (s == t) = (t == s)
      by_cases h : s = t
      · rw [h]
      · rw [beq_eq_false_iff_ne.2 h, beq_eq_false_iff_ne.2 (Ne.symm h)]
    | placeholder b => rfl
  | placeholder a =>
    cases y with
    | str t => rfl
    | placeholder b => rfl

theorem hashCompare_symm (a b : Node) : hashCompare a b = hashCompare b a :=
  pyEq_symm _ _

theorem createDiffsOpt_none (cmp : Node → Node → Bool) (p : List String) (n : Node) :
    createDiffsOpt cmp p n none = (createDiffsNone p n, some .add) := by
  cases n <;> rfl

theorem pairDiffs_file_file (p : List String) (h : String) (sz : Nat)
    (h' : String) (sz' : Nat) :
    pairDiffs p (.file h sz) (.file h' sz') =
      if hashCompare (.file h sz) (.file h' sz') then []
      else [⟨.modify, p, some (.str h), some sz, some (.str h'), some sz'⟩] := by
  by_cases hc : hashCompare (.file h sz) (.file h' sz') = true
  · rw [pairDiffs, createDiffsOpt, if_pos hc, if_pos hc]
  · rw [pairDiffs, createDiffsOpt, if_neg hc, if_neg hc]

theorem pairDiffs_file_dir (p : List String) (h : String) (sz : Nat)
    (ea' : Bool) (cs' : List (String × Node)) :
    pairDiffs p (.file h sz) (.dir ea' cs') =
      ⟨.remove, p, none, none, some (.placeholder ea'), none⟩ ::
        createDiffsNone p (.file h sz) := rfl

theorem pairDiffs_dir_file (p : List String) (ea : Bool) (cs : List (String × Node))
    (h' : String) (sz' : Nat) :
    pairDiffs p (.dir ea cs) (.file h' sz') =
      ⟨.remove, p, none, none, some (.str h'), some sz'⟩ ::
        createDiffsNone p (.dir ea cs) := rfl

theorem pairDiffs_dir_dir (p : List String) (ea : Bool) (cs : List (String × Node))
    (ea' : Bool) (cs' : List (String × Node)) :
    pairDiffs p (.dir ea cs) (.dir ea' cs') =
      if rawSummary hashCompare p cs cs' = some DiffOperation.remove then
        if ea || ea' then rawDiffs hashCompare p cs cs'
        else [⟨.remove, p, none, none, some (.placeholder ea'), none⟩]
      else rawDiffs hashCompare p cs cs' := by
  by_cases hrem : (createDiffsChildren hashCompare p cs cs'
      (dirInitialSummary p cs cs')).2 = some DiffOperation.remove
  · have h1 : rawSummary hashCompare p cs cs' = some DiffOperation.remove := hrem
    by_cases hea : (ea || ea') = true
    · rw [if_pos h1, if_pos hea, pairDiffs, createDiffsOpt, if_pos hrem, if_pos hea]
      rfl
    · rw [if_pos h1, if_neg hea, pairDiffs, createDiffsOpt, if_pos hrem, if_neg hea]
  · have h1 : ¬rawSummary hashCompare p cs cs' = some DiffOperation.remove := hrem
    rw [if_neg h1, pairDiffs, createDiffsOpt, if_neg hrem]
    rfl

theorem mem_rawDiffs {d : DiffResult} {cmp : Node → Node → Bool} {p : List String}
    {cs cs' : List (String × Node)} :
    d ∈ rawDiffs cmp p cs cs' ↔
      d ∈ dirRemoves p cs cs' ∨
      ∃ c ∈ cs, d ∈ (createDiffsOpt cmp (p ++ [c.1]) c.2 (List.lookup c.1 cs')).1 := by
  rw [rawDiffs, List.mem_append, mem_createDiffsChildren]

theorem rawDiffs_paths (cmp : Node → Node → Bool) (p : List String)
    (cs cs' : List (String × Node)) :
    ∀ d ∈ rawDiffs cmp p cs cs', isPathPrefix p d.path := by
  intro d hd
  rcases mem_rawDiffs.1 hd with hd | ⟨c, hc, hd⟩
  · rw [mem_dirRemoves] at hd
    obtain ⟨c, _, _, rfl⟩ := hd
    exact isPathPrefix_append p [c.1]
  · exact isPathPrefix_trans (isPathPrefix_append p [c.1])
      (createDiffsOpt_paths cmp c.2 _ _ d hd)

/-- Raw (pre-collapse) mirror correspondence for a pair of directory children
maps, given the mirror property for every common child pair. -/
theorem dirRawSym (p : List String) (cs cs' : List (String × Node))
    (hn1 : (cs.map Prod.fst).Nodup) (hn2 : (cs'.map Prod.fst).Nodup)
    (hIH : ∀ k v w, (k, v) ∈ cs → (k, w) ∈ cs' →
      DiffPairSym (p ++ [k]) v w ∧ DiffPairSym (p ++ [k]) w v) :
    (∀ d ∈ rawDiffs hashCompare p cs cs',
      (d.operation = .modify → d.swapSides ∈ rawDiffs hashCompare p cs' cs) ∧
      (d.operation = .add → ∃ d' ∈ rawDiffs hashCompare p cs' cs,
        d'.operation = .remove ∧ isPathPrefix d'.path d.path) ∧
      (d.operation = .remove → ∃ d' ∈ rawDiffs hashCompare p cs' cs,
        d'.operation = .add ∧ isPathPrefix d.path d'.path)) ∧
    (rawDiffs hashCompare p cs cs' = [] → rawDiffs hashCompare p cs' cs = []) := by
  constructor
  · intro d hd
    rcases mem_rawDiffs.1 hd with hd | ⟨c, hc, hd⟩
    · -- a record of the first loop: a remove for a key only in `cs'`
      rw [mem_dirRemoves] at hd
      obtain ⟨c, hcmem, hnc, rfl⟩ := hd
      refine ⟨?_, ?_, ?_⟩
      · intro hop; simp at hop
      · intro hop; simp at hop
      · intro _
        have hlk : List.lookup c.1 cs = none := lookup_eq_none_iff.2 hnc
        obtain ⟨e, he⟩ := List.exists_mem_of_ne_nil _ (createDiffsNone_ne_nil c.2 (p ++ [c.1]))
        refine ⟨e, ?_, (createDiffsNone_spec _ _ _ he).1, (createDiffsNone_spec _ _ _ he).2⟩
        refine mem_rawDiffs.2 (Or.inr ⟨c, hcmem, ?_⟩)
        rw [hlk, createDiffsOpt_none]
        exact he
    · -- a record of the second loop: `c ∈ cs`
      cases hlk : List.lookup c.1 cs' with
      | none =>
        rw [hlk, createDiffsOpt_none] at hd
        obtain ⟨hop, hpre⟩ := createDiffsNone_spec _ _ _ hd
        have hckf : containsKey cs' c.1 = false := lookup_eq_none_iff.1 hlk
        refine ⟨?_, ?_, ?_⟩
        · intro h; rw [hop] at h; exact absurd h (by decide)
        · intro _
          refine ⟨⟨.remove, p ++ [c.1], none, none, some c.2.hash_value, c.2.file_size⟩,
            ?_, rfl, hpre⟩
          exact mem_rawDiffs.2 (Or.inl (mem_dirRemoves.2 ⟨c, hc, hckf, rfl⟩))
        · intro h; rw [hop] at h; exact absurd h (by decide)
      | some w =>
        rw [hlk] at hd
        have hw : (c.1, w) ∈ cs' := lookup_mem hlk
        have hlk2 : List.lookup c.1 cs = some c.2 := lookup_eq_of_mem_nodup hc hn1
        obtain ⟨hm, ha, hr, _⟩ := (hIH c.1 c.2 w hc hw).1
        have hsubB : ∀ e, e ∈ pairDiffs (p ++ [c.1]) w c.2 →
            e ∈ rawDiffs hashCompare p cs' cs := by
          intro e he
          refine mem_rawDiffs.2 (Or.inr ⟨(c.1, w), hw, ?_⟩)
          show e ∈ (createDiffsOpt hashCompare (p ++ [c.1]) w (List.lookup c.1 cs)).1
          rw [hlk2]
          exact he
        have hdF : d ∈ pairDiffs (p ++ [c.1]) c.2 w := hd
        refine ⟨?_, ?_, ?_⟩
        · intro hop
          exact hsubB _ (hm d hdF hop)
        · intro hop
          obtain ⟨d', hd', hop', hpre'⟩ := ha d hdF hop
          exact ⟨d', hsubB d' hd', hop', hpre'⟩
        · intro hop
          obtain ⟨d', hd', hop', hpre'⟩ := hr d hdF hop
          exact ⟨d', hsubB d' hd', hop', hpre'⟩
  · intro hnil
    rw [rawDiffs] at hnil
    rcases List.append_eq_nil.1 hnil with ⟨hdr, hch⟩
    have hkeys : ∀ c ∈ cs', containsKey cs c.1 = true := dirRemoves_eq_nil_iff.1 hdr
    have hchild : ∀ c ∈ cs,
        (createDiffsOpt hashCompare (p ++ [c.1]) c.2 (List.lookup c.1 cs')).1 = [] := by
      intro c hc
      rw [List.eq_nil_iff_forall_not_mem]
      intro e he
      have hmem : e ∈ (createDiffsChildren hashCompare p cs cs'
          (dirInitialSummary p cs cs')).1 :=
        mem_createDiffsChildren.2 ⟨c, hc, he⟩
      rw [hch] at hmem
      simp at hmem
    rw [rawDiffs]
    refine List.append_eq_nil.2 ⟨?_, ?_⟩
    · rw [dirRemoves_eq_nil_iff]
      intro c hc
      cases hlk : List.lookup c.1 cs' with
      | none =>
        exfalso
        have hc2 := hchild c hc
        rw [hlk, createDiffsOpt_none] at hc2
        exact createDiffsNone_ne_nil _ _ hc2
      | some w =>
        cases hck : containsKey cs' c.1
        · exact absurd (lookup_eq_none_iff.2 hck) (by rw [hlk]; simp)
        · rfl
    · rw [List.eq_nil_iff_forall_not_mem]
      intro e he
      rw [mem_createDiffsChildren] at he
      obtain ⟨c, hc', he⟩ := he
      obtain ⟨v, hv⟩ := containsKey_iff.1 (hkeys c hc')
      have hlkv : List.lookup c.1 cs = some v := lookup_eq_of_mem_nodup hv hn1
      rw [hlkv] at he
      have hw : List.lookup c.1 cs' = some c.2 := lookup_eq_of_mem_nodup hc' hn2
      have hF : (createDiffsOpt hashCompare (p ++ [c.1]) v (some c.2)).1 = [] := by
        have hc2 := hchild (c.1, v) hv
        rw [hw] at hc2
        exact hc2
      have hB := ((hIH c.1 v c.2 hv hc').1).2.2.2 hF
      have he' : e ∈ pairDiffs (p ++ [c.1]) c.2 v := he
      rw [hB] at he'
      simp at he'

/-- When the pre-collapse summary of the forward direction is `remove`, the
raw backward diffs consist solely of add records and are non-empty. -/
theorem dirCollapseSym (p : List String) (cs cs' : List (String × Node))
    (hn1 : (cs.map Prod.fst).Nodup) (hn2 : (cs'.map Prod.fst).Nodup)
    (hIH : ∀ k v w, (k, v) ∈ cs → (k, w) ∈ cs' →
      DiffPairSym (p ++ [k]) v w ∧ DiffPairSym (p ++ [k]) w v)
    (hrem : rawSummary hashCompare p cs cs' = some DiffOperation.remove) :
    (∀ d ∈ rawDiffs hashCompare p cs' cs, d.operation = .add) ∧
    rawDiffs hashCompare p cs' cs ≠ [] := by
  obtain ⟨hinit, hall, hsrc⟩ := createDiffsChildren_summary_remove hrem
  have hkey : ∀ c ∈ cs, ∃ w, List.lookup c.1 cs' = some w := by
    intro c hc
    cases hlk : List.lookup c.1 cs' with
    | none =>
      exfalso
      have hsum : (createDiffsOpt hashCompare (p ++ [c.1]) c.2 (List.lookup c.1 cs')).2 = none ∨
          (createDiffsOpt hashCompare (p ++ [c.1]) c.2 (List.lookup c.1 cs')).2 =
            some DiffOperation.remove := hall c hc
      rw [hlk, createDiffsOpt_none] at hsum
      rcases hsum with h | h <;> simp at h
    | some w => exact ⟨w, rfl⟩
  have hBdr : dirRemoves p cs' cs = [] := by
    rw [dirRemoves_eq_nil_iff]
    intro c hc
    obtain ⟨w, hw⟩ := hkey c hc
    cases hck : containsKey cs' c.1
    · exact absurd (lookup_eq_none_iff.2 hck) (by rw [hw]; simp)
    · rfl
  constructor
  · intro d hd
    rcases mem_rawDiffs.1 hd with hd | ⟨c, hc, hd⟩
    · rw [hBdr] at hd
      simp at hd
    · cases hlk : List.lookup c.1 cs with
      | none =>
        rw [hlk, createDiffsOpt_none] at hd
        exact (createDiffsNone_spec _ _ _ hd).1
      | some v =>
        rw [hlk] at hd
        have hv : (c.1, v) ∈ cs := lookup_mem hlk
        have hw : List.lookup c.1 cs' = some c.2 := lookup_eq_of_mem_nodup hc hn2
        have hsum : (createDiffsOpt hashCompare (p ++ [c.1]) v (List.lookup c.1 cs')).2 = none ∨
            (createDiffsOpt hashCompare (p ++ [c.1]) v (List.lookup c.1 cs')).2 =
              some DiffOperation.remove := hall (c.1, v) hv
        rw [hw] at hsum
        rcases hsum with hsum | hsum
        · exfalso
          have hFnil := (summary_none_iff_nil hashCompare v (some c.2) (p ++ [c.1])).1 hsum
          have hBnil := ((hIH c.1 v c.2 hv hc).1).2.2.2 hFnil
          have hd' : d ∈ pairDiffs (p ++ [c.1]) c.2 v := hd
          rw [hBnil] at hd'
          simp at hd'
        · have hsing := summary_remove_spec hashCompare (p ++ [c.1]) v c.2 hsum
          obtain ⟨hm, _, hr2, _⟩ := (hIH c.1 v c.2 hv hc).2
          have hdB : d ∈ pairDiffs (p ++ [c.1]) c.2 v := hd
          cases hop : d.operation with
          | add => rfl
          | modify =>
            exfalso
            have hsw := hm d hdB hop
            rw [show pairDiffs (p ++ [c.1]) v c.2 =
              [⟨.remove, p ++ [c.1], none, none, some c.2.hash_value, c.2.file_size⟩]
              from hsing, List.mem_singleton] at hsw
            have hswop : d.swapSides.operation = DiffOperation.remove := by rw [hsw]
            rw [show d.swapSides.operation = d.operation from rfl, hop] at hswop
            exact absurd hswop (by decide)
          | remove =>
            exfalso
            obtain ⟨d', hd', hop', _⟩ := hr2 d hdB hop
            rw [show pairDiffs (p ++ [c.1]) v c.2 =
              [⟨.remove, p ++ [c.1], none, none, some c.2.hash_value, c.2.file_size⟩]
              from hsing, List.mem_singleton] at hd'
            rw [hd'] at hop'
            simp at hop'
  · rcases hsrc with hinit' | ⟨c, hc, hcrem⟩
    · rw [dirInitialSummary] at hinit'
      by_cases hdr : (dirRemoves p cs cs').isEmpty
      · rw [if_pos hdr] at hinit'
        simp at hinit'
      · have hne : dirRemoves p cs cs' ≠ [] := by simpa using hdr
        obtain ⟨e, he⟩ := List.exists_mem_of_ne_nil _ hne
        rw [mem_dirRemoves] at he
        obtain ⟨c, hc, hnc, rfl⟩ := he
        intro hnil
        have hlk : List.lookup c.1 cs = none := lookup_eq_none_iff.2 hnc
        obtain ⟨e, he⟩ :=
          List.exists_mem_of_ne_nil _ (createDiffsNone_ne_nil c.2 (p ++ [c.1]))
        have hmem : e ∈ rawDiffs hashCompare p cs' cs := by
          refine mem_rawDiffs.2 (Or.inr ⟨c, hc, ?_⟩)
          rw [hlk, createDiffsOpt_none]
          exact he
        rw [hnil] at hmem
        simp at hmem
    · intro hnil
      obtain ⟨w, hw⟩ := hkey c hc
      rw [hw] at hcrem
      have hsing := summary_remove_spec hashCompare (p ++ [c.1]) c.2 w hcrem
      obtain ⟨_, _, hr3, _⟩ := (hIH c.1 c.2 w hc (lookup_mem hw)).1
      have hlk2 : List.lookup c.1 cs = some c.2 := lookup_eq_of_mem_nodup hc hn1
      have hmem : (⟨.remove, p ++ [c.1], none, none, some w.hash_value, w.file_size⟩ :
          DiffResult) ∈ pairDiffs (p ++ [c.1]) c.2 w := by
        rw [show pairDiffs (p ++ [c.1]) c.2 w =
          [⟨.remove, p ++ [c.1], none, none, some w.hash_value, w.file_size⟩] from hsing]
        exact List.mem_singleton.2 rfl
      obtain ⟨d', hd', hop', _⟩ := hr3 _ hmem rfl
      have hmem' : d' ∈ rawDiffs hashCompare p cs' cs := by
        refine mem_rawDiffs.2 (Or.inr ⟨(c.1, w), lookup_mem hw, ?_⟩)
        show d' ∈ (createDiffsOpt hashCompare (p ++ [c.1]) w (List.lookup c.1 cs)).1
        rw [hlk2]
        exact hd'
      rw [hnil] at hmem'
      simp at hmem'

/-- The two directions of a directory pair can never both collapse. -/
theorem dirCollapse_not_both (p : List String) (cs cs' : List (String × Node))
    (hn1 : (cs.map Prod.fst).Nodup) (hn2 : (cs'.map Prod.fst).Nodup)
    (hIH : ∀ k v w, (k, v) ∈ cs → (k, w) ∈ cs' →
      DiffPairSym (p ++ [k]) v w ∧ DiffPairSym (p ++ [k]) w v)
    (hF : rawSummary hashCompare p cs cs' = some DiffOperation.remove) :
    rawSummary hashCompare p cs' cs ≠ some DiffOperation.remove := by
  intro hB
  obtain ⟨hall, hne⟩ := dirCollapseSym p cs cs' hn1 hn2 hIH hF
  obtain ⟨d, hd⟩ := List.exists_mem_of_ne_nil _ hne
  have hadd := hall d hd
  obtain ⟨hinitB, hallB, _⟩ := createDiffsChildren_summary_remove hB
  rcases mem_rawDiffs.1 hd with hd' | ⟨c, hc, hd'⟩
  · rw [mem_dirRemoves] at hd'
    obtain ⟨c, _, _, rfl⟩ := hd'
    simp at hadd
  · have hsum : (createDiffsOpt hashCompare (p ++ [c.1]) c.2 (List.lookup c.1 cs)).2 = none ∨
        (createDiffsOpt hashCompare (p ++ [c.1]) c.2 (List.lookup c.1 cs)).2 =
          some DiffOperation.remove := hallB c hc
    rcases hsum with hsum | hsum
    · have hnil2 := (summary_none_iff_nil hashCompare c.2 (List.lookup c.1 cs) (p ++ [c.1])).1 hsum
      rw [hnil2] at hd'
      simp at hd'
    · cases hlk : List.lookup c.1 cs with
      | none =>
        rw [hlk, createDiffsOpt_none] at hsum
        simp at hsum
      | some v =>
        rw [hlk] at hsum hd'
        have hsing := summary_remove_spec hashCompare (p ++ [c.1]) c.2 v hsum
        rw [hsing, List.mem_singleton] at hd'
        rw [hd'] at hadd
        simp at hadd

/-- Packaging `dirRawSym` into `DiffPairSym` when neither direction takes the
collapse branch. -/
theorem rawSym_pack (p : List String) (ea : Bool) (cs : List (String × Node))
    (ea' : Bool) (cs' : List (String × Node))
    (hn1 : (cs.map Prod.fst).Nodup) (hn2 : (cs'.map Prod.fst).Nodup)
    (hIH : ∀ k v w, (k, v) ∈ cs → (k, w) ∈ cs' →
      DiffPairSym (p ++ [k]) v w ∧ DiffPairSym (p ++ [k]) w v)
    (hFeq : pairDiffs p (.dir ea cs) (.dir ea' cs') = rawDiffs hashCompare p cs cs')
    (hBeq : pairDiffs p (.dir ea' cs') (.dir ea cs) = rawDiffs hashCompare p cs' cs) :
    DiffPairSym p (.dir ea cs) (.dir ea' cs') := by
  obtain ⟨hmain, h4⟩ := dirRawSym p cs cs' hn1 hn2 hIH
  refine ⟨?_, ?_, ?_, ?_⟩
  · intro d hd hop
    rw [hFeq] at hd
    rw [hBeq]
    exact (hmain d hd).1 hop
  · intro d hd hop
    rw [hFeq] at hd
    rw [hBeq]
    exact (hmain d hd).2.1 hop
  · intro d hd hop
    rw [hFeq] at hd
    rw [hBeq]
    exact (hmain d hd).2.2 hop
  · intro hnil
    rw [hFeq] at hnil
    rw [hBeq]
    exact h4 hnil

theorem fileFileSym (p : List String) (h : String) (sz : Nat) (h' : String) (sz' : Nat) :
    DiffPairSym p (.file h sz) (.file h' sz') := by
  by_cases hc : hashCompare (.file h sz) (.file h' sz') = true
  · have hc' : hashCompare (.file h' sz') (.file h sz) = true :=
      (hashCompare_symm _ _).trans hc
    have hF : pairDiffs p (.file h sz) (.file h' sz') = [] := by
      rw [pairDiffs_file_file, if_pos hc]
    have hB : pairDiffs p (.file h' sz') (.file h sz) = [] := by
      rw [pairDiffs_file_file, if_pos hc']
    refine ⟨?_, ?_, ?_, fun _ => hB⟩ <;> intro d hd <;> rw [hF] at hd <;> simp at hd
  · have hcf : hashCompare (.file h sz) (.file h' sz') = false := Bool.eq_false_iff.2 hc
    have hc' : hashCompare (.file h' sz') (.file h sz) = false :=
      (hashCompare_symm _ _).trans hcf
    have hF : pairDiffs p (.file h sz) (.file h' sz') =
        [⟨.modify, p, some (.str h), some sz, some (.str h'), some sz'⟩] := by
      rw [pairDiffs_file_file, if_neg hc]
    have hB : pairDiffs p (.file h' sz') (.file h sz) =
        [⟨.modify, p, some (.str h'), some sz', some (.str h), some sz⟩] := by
      rw [pairDiffs_file_file, if_neg (by simp [hc'])]
    refine ⟨?_, ?_, ?_, ?_⟩
    · intro d hd _
      rw [hF, List.mem_singleton] at hd
      rw [hB, hd]
      exact List.mem_singleton.2 rfl
    · intro d hd hop
      rw [hF, List.mem_singleton] at hd
      rw [hd] at hop
      simp at hop
    · intro d hd hop
      rw [hF, List.mem_singleton] at hd
      rw [hd] at hop
      simp at hop
    · intro hnil
      rw [hF] at hnil
      simp at hnil

theorem fileDirSym (p : List String) (h : String) (sz : Nat)
    (ea' : Bool) (cs' : List (String × Node)) :
    DiffPairSym p (.file h sz) (.dir ea' cs') ∧
    DiffPairSym p (.dir ea' cs') (.file h sz) := by
  have hF : pairDiffs p (.file h sz) (.dir ea' cs') =
      [⟨.remove, p, none, none, some (.placeholder ea'), none⟩,
       ⟨.add, p, some (.str h), some sz, none, none⟩] := rfl
  have hB := pairDiffs_dir_file p ea' cs' h sz
  constructor
  · refine ⟨?_, ?_, ?_, ?_⟩
    · intro d hd hop
      rw [hF] at hd
      rcases List.mem_cons.1 hd with rfl | hd
      · simp at hop
      · rw [List.mem_singleton] at hd
        rw [hd] at hop
        simp at hop
    · intro d hd hop
      rw [hF] at hd
      rcases List.mem_cons.1 hd with rfl | hd
      · simp at hop
      · rw [List.mem_singleton] at hd
        refine ⟨⟨.remove, p, none, none, some (.str h), some sz⟩, ?_, rfl, ?_⟩
        · rw [hB]
          exact List.mem_cons_self _ _
        · rw [hd]
          exact isPathPrefix_refl p
    · intro d hd hop
      rw [hF] at hd
      rcases List.mem_cons.1 hd with rfl | hd
      · obtain ⟨e, he⟩ :=
          List.exists_mem_of_ne_nil _ (createDiffsNone_ne_nil (.dir ea' cs') p)
        refine ⟨e, ?_, (createDiffsNone_spec _ _ _ he).1, (createDiffsNone_spec _ _ _ he).2⟩
        rw [hB]
        exact List.mem_cons_of_mem _ he
      · rw [List.mem_singleton] at hd
        rw [hd] at hop
        simp at hop
    · intro hnil
      rw [hF] at hnil
      simp at hnil
  · refine ⟨?_, ?_, ?_, ?_⟩
    · intro d hd hop
      rw [hB] at hd
      rcases List.mem_cons.1 hd with rfl | hd
      · simp at hop
      · have := (createDiffsNone_spec _ _ _ hd).1
        rw [hop] at this
        exact absurd this (by decide)
    · intro d hd hop
      rw [hB] at hd
      rcases List.mem_cons.1 hd with rfl | hd
      · simp at hop
      · refine ⟨⟨.remove, p, none, none, some (.placeholder ea'), none⟩, ?_, rfl, ?_⟩
        · rw [hF]
          exact List.mem_cons_self _ _
        · exact (createDiffsNone_spec _ _ _ hd).2
    · intro d hd hop
      rw [hB] at hd
      rcases List.mem_cons.1 hd with rfl | hd
      · refine ⟨⟨.add, p, some (.str h), some sz, none, none⟩, ?_, rfl, isPathPrefix_refl p⟩
        rw [hF]
        exact List.mem_cons_of_mem _ (List.mem_singleton.2 rfl)
      · have := (createDiffsNone_spec _ _ _ hd).1
        rw [hop] at this
        exact absurd this (by decide)
    · intro hnil
      rw [hB] at hnil
      simp at hnil

theorem dirDirSym (p : List String) (ea : Bool) (cs : List (String × Node))
    (ea' : Bool) (cs' : List (String × Node))
    (hn1 : (cs.map Prod.fst).Nodup) (hn2 : (cs'.map Prod.fst).Nodup)
    (hIH : ∀ k v w, (k, v) ∈ cs → (k, w) ∈ cs' →
      DiffPairSym (p ++ [k]) v w ∧ DiffPairSym (p ++ [k]) w v) :
    DiffPairSym p (.dir ea cs) (.dir ea' cs') := by
  have hIH' : ∀ k v w, (k, v) ∈ cs' → (k, w) ∈ cs →
      DiffPairSym (p ++ [k]) v w ∧ DiffPairSym (p ++ [k]) w v :=
    fun k v w hv hw => ⟨(hIH k w v hw hv).2, (hIH k w v hw hv).1⟩
  have hF := pairDiffs_dir_dir p ea cs ea' cs'
  have hB := pairDiffs_dir_dir p ea' cs' ea cs
  by_cases hsF : rawSummary hashCompare p cs cs' = some DiffOperation.remove
  · by_cases hea : (ea || ea') = true
    · have hF' : pairDiffs p (.dir ea cs) (.dir ea' cs') = rawDiffs hashCompare p cs cs' := by
        rw [hF, if_pos hsF, if_pos hea]
      have hB' : pairDiffs p (.dir ea' cs') (.dir ea cs) = rawDiffs hashCompare p cs' cs := by
        rw [hB]
        by_cases hsB : rawSummary hashCompare p cs' cs = some DiffOperation.remove
        · rw [if_pos hsB, if_pos (by rw [Bool.or_comm]; exact hea)]
        · rw [if_neg hsB]
      exact rawSym_pack p ea cs ea' cs' hn1 hn2 hIH hF' hB'
    · have hsB := dirCollapse_not_both p cs cs' hn1 hn2 hIH hsF
      have hF' : pairDiffs p (.dir ea cs) (.dir ea' cs') =
          [⟨.remove, p, none, none, some (.placeholder ea'), none⟩] := by
        rw [hF, if_pos hsF, if_neg hea]
      have hB' : pairDiffs p (.dir ea' cs') (.dir ea cs) = rawDiffs hashCompare p cs' cs := by
        rw [hB, if_neg hsB]
      obtain ⟨hall, hne⟩ := dirCollapseSym p cs cs' hn1 hn2 hIH hsF
      obtain ⟨e, he⟩ := List.exists_mem_of_ne_nil _ hne
      refine ⟨?_, ?_, ?_, ?_⟩
      · intro d hd hop
        rw [hF', List.mem_singleton] at hd
        rw [hd] at hop
        simp at hop
      · intro d hd hop
        rw [hF', List.mem_singleton] at hd
        rw [hd] at hop
        simp at hop
      · intro d hd _
        rw [hF', List.mem_singleton] at hd
        rw [hB']
        refine ⟨e, he, hall e he, ?_⟩
        rw [hd]
        exact rawDiffs_paths hashCompare p cs' cs e he
      · intro hnil
        rw [hF'] at hnil
        simp at hnil
  · have hF' : pairDiffs p (.dir ea cs) (.dir ea' cs') = rawDiffs hashCompare p cs cs' := by
      rw [hF, if_neg hsF]
    by_cases hsB : rawSummary hashCompare p cs' cs = some DiffOperation.remove
    · by_cases hea : (ea' || ea) = true
      · have hB' : pairDiffs p (.dir ea' cs') (.dir ea cs) = rawDiffs hashCompare p cs' cs := by
          rw [hB, if_pos hsB, if_pos hea]
        exact rawSym_pack p ea cs ea' cs' hn1 hn2 hIH hF' hB'
      · have hB' : pairDiffs p (.dir ea' cs') (.dir ea cs) =
            [⟨.remove, p, none, none, some (.placeholder ea), none⟩] := by
          rw [hB, if_pos hsB, if_neg hea]
        obtain ⟨hallF, hneF⟩ := dirCollapseSym p cs' cs hn2 hn1 hIH' hsB
        refine ⟨?_, ?_, ?_, ?_⟩
        · intro d hd hop
          rw [hF'] at hd
          have := hallF d hd
          rw [hop] at this
          exact absurd this (by decide)
        · intro d hd _
          rw [hF'] at hd
          rw [hB']
          exact ⟨⟨.remove, p, none, none, some (.placeholder ea), none⟩,
            List.mem_singleton.2 rfl, rfl, rawDiffs_paths hashCompare p cs cs' d hd⟩
        · intro d hd hop
          rw [hF'] at hd
          have := hallF d hd
          rw [hop] at this
          exact absurd this (by decide)
        · intro hnil
          rw [hF'] at hnil
          exact absurd hnil hneF
    · have hB' : pairDiffs p (.dir ea' cs') (.dir ea cs) = rawDiffs hashCompare p cs' cs := by
        rw [hB, if_neg hsB]
      exact rawSym_pack p ea cs ea' cs' hn1 hn2 hIH hF' hB'

/-- Both directions of the mirror correspondence, for every well-formed pair
of nodes at every position. -/
theorem diffPairSym_all : ∀ (a b : Node) (p : List String),
    Node.wf a → Node.wf b → DiffPairSym p a b ∧ DiffPairSym p b a := by
  intro a
  induction a using Node.inductionOn with
  | hfile h sz =>
    intro b p _ hwb
    cases b with
    | file h' sz' => exact ⟨fileFileSym p h sz h' sz', fileFileSym p h' sz' h sz⟩
    | dir ea' cs' => exact fileDirSym p h sz ea' cs'
  | hdir ea cs ih =>
    intro b p hwa hwb
    cases b with
    | file h' sz' =>
      exact ⟨(fileDirSym p h' sz' ea cs).2, (fileDirSym p h' sz' ea cs).1⟩
    | dir ea' cs' =>
      have hn1 := hwa.children_nodup
      have hn2 := hwb.children_nodup
      have hIH : ∀ k v w, (k, v) ∈ cs → (k, w) ∈ cs' →
          DiffPairSym (p ++ [k]) v w ∧ DiffPairSym (p ++ [k]) w v := by
        intro k v w hv hw
        exact ih (k, v) hv w (p ++ [k]) (hwa.of_mem hv) (hwb.of_mem hw)
      have hIH' : ∀ k v w, (k, v) ∈ cs' → (k, w) ∈ cs →
          DiffPairSym (p ++ [k]) v w ∧ DiffPairSym (p ++ [k]) w v :=
        fun k v w hv hw => ⟨(hIH k w v hw hv).2, (hIH k w v hw hv).1⟩
      exact ⟨dirDirSym p ea cs ea' cs' hn1 hn2 hIH,
        dirDirSym p ea' cs' ea cs hn2 hn1 hIH'⟩

/-!
## Claim theorems
-/

/-- C1, counterexample: the claim asserts that every add emitted by
`A.Diff(B)` appears as a remove at the same path in `B.Diff(A)`. With
`A = dir{"d": dir{"x": file}}` and `B` an empty directory, the forward diff
emits an add at path `d/x`, but the backward diff collapses (directory-
collapse rule, `Snapshot.py:374-396`) into a single remove of the root: it
contains no remove at path `d/x`. -/
theorem diff_mirror_same_path_counterexample :
    (⟨.add, ["d", "x"], some (.str "h"), some 1, none, none⟩ : DiffResult) ∈
      snapshotDiff (.dir false [("d", .dir false [("x", .file "h" 1)])]) (.dir false []) ∧
    ¬∃ d' ∈ snapshotDiff (.dir false [])
        (.dir false [("d", .dir false [("x", .file "h" 1)])]),
      d'.operation = DiffOperation.remove ∧ d'.path = ["d", "x"] := by
  constructor
  · decide
  · decide

/-- C1 (amended): for well-formed snapshot trees the two diff directions
mirror each other up to directory collapsing: every modify of `A.Diff(B)`
appears in `B.Diff(A)` at the same path with the `(this_hash,
this_file_size)` and `(other_hash, other_file_size)` fields swapped; every
add is answered by a remove at the same or an ancestor path; every remove is
answered by an add at the same or a descendant path; and one direction is
empty only when the other is. -/
theorem diff_mirror_ancestor_correspondence (a b : Node)
    (ha : Node.wf a) (hb : Node.wf b) :
    (∀ d ∈ snapshotDiff a b, d.operation = .modify → d.swapSides ∈ snapshotDiff b a) ∧
    (∀ d ∈ snapshotDiff a b, d.operation = .add →
      ∃ d' ∈ snapshotDiff b a, d'.operation = .remove ∧ isPathPrefix d'.path d.path) ∧
    (∀ d ∈ snapshotDiff a b, d.operation = .remove →
      ∃ d' ∈ snapshotDiff b a, d'.operation = .add ∧ isPathPrefix d.path d'.path) ∧
    (snapshotDiff a b = [] → snapshotDiff b a = []) :=
  (diffPairSym_all a b [] ha hb).1

/-- Witness for `diff_mirror_ancestor_correspondence` at the counterexample
pair of trees. -/
theorem diff_mirror_ancestor_correspondence_witness :
    Node.wf (Node.dir false [("d", Node.dir false [("x", Node.file "h" 1)])]) ∧
    Node.wf (Node.dir false []) ∧
    ((∀ d ∈ snapshotDiff (Node.dir false [("d", Node.dir false [("x", Node.file "h" 1)])])
        (Node.dir false []), d.operation = .modify →
      d.swapSides ∈ snapshotDiff (Node.dir false [])
        (Node.dir false [("d", Node.dir false [("x", Node.file "h" 1)])])) ∧
    (∀ d ∈ snapshotDiff (Node.dir false [("d", Node.dir false [("x", Node.file "h" 1)])])
        (Node.dir false []), d.operation = .add →
      ∃ d' ∈ snapshotDiff (Node.dir false [])
        (Node.dir false [("d", Node.dir false [("x", Node.file "h" 1)])]),
        d'.operation = .remove ∧ isPathPrefix d'.path d.path) ∧
    (∀ d ∈ snapshotDiff (Node.dir false [("d", Node.dir false [("x", Node.file "h" 1)])])
        (Node.dir false []), d.operation = .remove →
      ∃ d' ∈ snapshotDiff (Node.dir false [])
        (Node.dir false [("d", Node.dir false [("x", Node.file "h" 1)])]),
        d'.operation = .add ∧ isPathPrefix d.path d'.path) ∧
    (snapshotDiff (Node.dir false [("d", Node.dir false [("x", Node.file "h" 1)])])
        (Node.dir false []) = [] →
      snapshotDiff (Node.dir false [])
        (Node.dir false [("d", Node.dir false [("x", Node.file "h" 1)])]) = [])) :=
  ⟨by decide, by decide,
    diff_mirror_ancestor_correspondence _ _ (by decide) (by decide)⟩

/-- C2: deserializing a serialized snapshot node reproduces it:
`Snapshot.Node.FromJson(None, None, S.node.ToJson())` equals `S.node` — here
both as exact structural equality of the embedded trees and under the
embedded Python `Node` equality (which excludes the `parent` back-reference
and under which two `DirHashPlaceholder`s are equal regardless of their
`explicitly_added` flags). -/
theorem snapshot_json_roundtrip (n : Node) (hn : Node.wf n) :
    Node.FromJson (Node.ToJson n) = n ∧ Node.pyEq (Node.FromJson (Node.ToJson n)) n = true :=
  ⟨fromJson_toJson n, by rw [fromJson_toJson n]; exact pyEq_refl n hn⟩

/-- Witness for `snapshot_json_roundtrip` at a concrete snapshot tree. -/
theorem snapshot_json_roundtrip_witness :
    Node.wf (Node.dir false [("EmptyDir", Node.dir true []), ("one", Node.file "h1" 5)]) ∧
    (Node.FromJson (Node.ToJson
        (Node.dir false [("EmptyDir", Node.dir true []), ("one", Node.file "h1" 5)])) =
      Node.dir false [("EmptyDir", Node.dir true []), ("one", Node.file "h1" 5)] ∧
    Node.pyEq (Node.FromJson (Node.ToJson
        (Node.dir false [("EmptyDir", Node.dir true []), ("one", Node.file "h1" 5)])))
      (Node.dir false [("EmptyDir", Node.dir true []), ("one", Node.file "h1" 5)]) = true) :=
  ⟨by decide, snapshot_json_roundtrip _ (by decide)⟩

/-- C3, counterexample: the claim asserts that a serialized directory node
stores `hash_value` as null with no `explicitly_added` flag, and that on load
the flag is reconstituted as true iff the children map is empty. In the code
(`DirHashPlaceholder.ToJson/FromJson`, `Snapshot.py:63-74`) the serialized
directory stores the flag inside `hash_value` and the loader reads it back
directly: here a directory with `explicitly_added=True` and a non-empty
children map round-trips with flag `true`, where the claim demands `false`. -/
theorem dir_flag_not_derived_counterexample :
    (Node.ToJson (Node.dir true [("f", Node.file "h" 1)])).storedFlag = some true ∧
    (Node.ToJson (Node.dir true [("f", Node.file "h" 1)])).childrenMap ≠ some [] ∧
    (Node.FromJson (Node.ToJson
        (Node.dir true [("f", Node.file "h" 1)]))).explicitlyAddedFlag = some true := by
  refine ⟨rfl, ?_, rfl⟩
  simp [Node.ToJson, toJsonChildren, JNode.childrenMap]

/-- C3, amended: when a persisted snapshot is loaded, each directory node's
placeholder `explicitly_added` flag is read directly from the
`explicitly_added` field that `DirHashPlaceholder.ToJson` stored inside the
serialized `hash_value` object (the serialized `hash_value` is that object,
not null), independently of whether the children map is empty. -/
theorem dir_flag_restored_from_stored_field (ea : Bool) (jcs : List (String × JNode))
    (cs : List (String × Node)) :
    (Node.FromJson (JNode.dir ea jcs)).explicitlyAddedFlag = some ea ∧
    (Node.ToJson (Node.dir ea cs)).storedFlag = some ea := by
  constructor
  · simp [Node.FromJson, Node.explicitlyAddedFlag]
  · simp [Node.ToJson, JNode.storedFlag]

/-- C4: in `CreateDiffs`, when the combined child summary of a
directory/directory pair is `remove`, either side's
`explicitly_added=True` keeps the individual per-child remove records and
demotes the summary to `modify` (the directory is not emitted as a single
collapsed remove); only when neither flag is set are the child diffs replaced
by a single remove of the directory itself (`Snapshot.py:374-396`). -/
theorem collapse_demoted_when_explicitly_added (cmp : Node → Node → Bool)
    (p : List String) (ea ea' : Bool) (cs cs' : List (String × Node))
    (hsum : (createDiffsChildren cmp p cs cs' (dirInitialSummary p cs cs')).2 =
      some .remove) :
    createDiffsOpt cmp p (.dir ea cs) (some (.dir ea' cs')) =
      if ea || ea' then
        (dirRemoves p cs cs' ++
          (createDiffsChildren cmp p cs cs' (dirInitialSummary p cs cs')).1,
         some .modify)
      else
        ([⟨.remove, p, none, none, some (.placeholder ea'), none⟩], some .remove) := by
  simp only [createDiffsOpt, hsum, if_true]

/-- Witness for `collapse_demoted_when_explicitly_added`: an explicitly added
empty directory on the local side against a directory with one file. -/
theorem collapse_demoted_when_explicitly_added_witness :
    (createDiffsChildren hashCompare [] [] [("x", Node.file "h" 1)]
        (dirInitialSummary [] [] [("x", Node.file "h" 1)])).2 = some .remove ∧
    createDiffsOpt hashCompare [] (.dir true []) (some (.dir false [("x", Node.file "h" 1)])) =
      if true || false then
        (dirRemoves [] [] [("x", Node.file "h" 1)] ++
          (createDiffsChildren hashCompare [] [] [("x", Node.file "h" 1)]
            (dirInitialSummary [] [] [("x", Node.file "h" 1)])).1,
         some .modify)
      else
        ([⟨.remove, [], none, none, some (.placeholder false), none⟩], some .remove) :=
  ⟨by decide, collapse_demoted_when_explicitly_added hashCompare [] true false []
    [("x", Node.file "h" 1)] (by decide)⟩

/-- C6, counterexample: the claim says the size precheck errors exactly when
the summed add/modify file sizes strictly exceed `0.85 * bytes_available`.
The code errors when `(bytes_available * 0.85) <= bytes_required`
(`Common.py:468`, `Mirror.py:244`): with 100 bytes available and 85 bytes
required the code reports the error although 85 does not strictly exceed
`0.85 * 100` (in exact arithmetic, `85 * 100 < 100 * 85` is false; Python's
float evaluation of `100 * 0.85 <= 85` is likewise true). -/
theorem size_precheck_boundary_counterexample :
    ValidateSizeRequirements (some 100) [LocalItem.file 85] = true ∧
    ¬ 85 * 100 < 100 * bytesRequired [LocalItem.file 85] := by
  decide

/-- C6, amended: the size precheck reports an error (and `Mirror.Backup`
performs no destination mutation) exactly when the summed sizes of the
add/modify files reach or exceed 0.85 times the available bytes
(`85 * available ≤ 100 * required` in exact arithmetic), and the check is
skipped entirely when `bytes_available` is `None`. -/
theorem size_precheck_threshold (items : List LocalItem) :
    (ValidateSizeRequirements none items = false) ∧
    (∀ avail, ValidateSizeRequirements (some avail) items = true ↔
      85 * avail ≤ 100 * bytesRequired items) ∧
    (∀ ba g force cw fw st, ValidateSizeRequirements ba items = true →
      mirrorBackupOps g ba items force cw fw = [] ∧
      runMirrorBackup g ba items force cw fw st = st) := by
  refine ⟨rfl, fun avail => by simp [ValidateSizeRequirements], ?_⟩
  intro ba g force cw fw st hval
  have hops : mirrorBackupOps g ba items force cw fw = [] := by
    by_cases hA : (g.addDiffs.isEmpty && g.modifyDiffs.isEmpty && g.removeDiffs.isEmpty) = true
    · simp [mirrorBackupOps, hA]
    · simp [mirrorBackupOps, hA, hval]
  exact ⟨hops, by simp [runMirrorBackup, hops]⟩

/-- Witness for `size_precheck_threshold` applied at the failing-size branch
with a non-empty diff set. -/
theorem size_precheck_threshold_witness :
    ValidateSizeRequirements (some 10) [LocalItem.file 100] = true ∧
    mirrorBackupOps ⟨[], [⟨.add, ["one"], some (.str "h"), some 100, none, none⟩], []⟩
      (some 10) [LocalItem.file 100] false [] [] = [] ∧
    runMirrorBackup ⟨[], [⟨.add, ["one"], some (.str "h"), some 100, none, none⟩], []⟩
      (some 10) [LocalItem.file 100] false [] [] ⟨[["x"]], 3⟩ = ⟨[["x"]], 3⟩ :=
  ⟨by decide,
    ((size_precheck_threshold [LocalItem.file 100]).2.2 (some 10)
      ⟨[], [⟨.add, ["one"], some (.str "h"), some 100, none, none⟩], []⟩
      false [] [] ⟨[["x"]], 3⟩ (by decide)).1,
    ((size_precheck_threshold [LocalItem.file 100]).2.2 (some 10)
      ⟨[], [⟨.add, ["one"], some (.str "h"), some 100, none, none⟩], []⟩
      false [] [] ⟨[["x"]], 3⟩ (by decide)).2⟩

/-- C9: every `DiffResult` produced by the diff engine (with the
`compare_hashes=True` comparator used by `Snapshot.Diff`) satisfies all the
consistency invariants asserted by the `DiffResult` constructors
(`Common.py:117-153`, `Snapshot.py:102-129`): add ⇒ `this` set/`other` null,
remove ⇒ `this` null/`other` set, modify ⇒ both set, string hashes that
differ; and on each side the file size is present iff the hash is a
string. -/
theorem diff_results_satisfy_constructor_invariants :
    ∀ (a : Node) (ob : Option Node) (p : List String) (d : DiffResult),
      d ∈ (createDiffsOpt hashCompare p a ob).1 → d.consistent := by
  intro a
  induction a using Node.inductionOn with
  | hfile h sz =>
    intro ob p d hd
    cases ob with
    | none =>
      simp only [createDiffsOpt] at hd
      exact consistent_createDiffsNone _ p d hd
    | some other =>
      cases other with
      | file h' sz' =>
        simp only [createDiffsOpt] at hd
        by_cases hcmp : hashCompare (.file h sz) (.file h' sz') = true
        · simp [hcmp] at hd
        · simp only [hcmp, Bool.false_eq_true, if_false, List.mem_singleton] at hd
          subst hd
          refine consistent_modify p h sz h' sz' ?_
          intro he
          exact hcmp (by simp [hashCompare, Node.hash_value, HashValue.pyEq, he])
      | dir ea' cs' =>
        simp only [createDiffsOpt, List.mem_cons] at hd
        rcases hd with rfl | hd
        · exact consistent_remove_placeholder p ea'
        · exact consistent_createDiffsNone _ p d hd
  | hdir ea cs ih =>
    intro ob p d hd
    cases ob with
    | none =>
      simp only [createDiffsOpt] at hd
      exact consistent_createDiffsNone _ p d hd
    | some other =>
      cases other with
      | file h' sz' =>
        simp only [createDiffsOpt, List.mem_cons] at hd
        rcases hd with rfl | hd
        · exact consistent_remove_file p h' sz'
        · exact consistent_createDiffsNone _ p d hd
      | dir ea' cs' =>
        have hmain : ∀ d : DiffResult,
            d ∈ dirRemoves p cs cs' ++
              (createDiffsChildren hashCompare p cs cs' (dirInitialSummary p cs cs')).1 →
            d.consistent := by
          intro d hd
          rcases List.mem_append.1 hd with hd | hd
          · rw [dirRemoves] at hd
            simp only [List.mem_map, List.mem_filter] at hd
            obtain ⟨c, ⟨hc, _⟩, rfl⟩ := hd
            exact consistent_remove_node _ c.2
          · rw [mem_createDiffsChildren] at hd
            obtain ⟨c, hc, hd⟩ := hd
            exact ih c hc _ _ _ hd
        simp only [createDiffsOpt] at hd
        by_cases hrem : (createDiffsChildren hashCompare p cs cs'
            (dirInitialSummary p cs cs')).2 = some DiffOperation.remove
        · by_cases hea : (ea || ea') = true
          · rw [if_pos hrem, if_pos hea] at hd
            exact hmain d hd
          · rw [if_pos hrem, if_neg hea, List.mem_singleton] at hd
            subst hd
            exact consistent_remove_placeholder p ea'
        · rw [if_neg hrem] at hd
          exact hmain d hd

/-- Witness for `diff_results_satisfy_constructor_invariants`: a modify
record of a one-file diff. -/
theorem diff_results_satisfy_constructor_invariants_witness :
    (⟨.modify, ["one"], some (.str "h1"), some 1, some (.str "h2"), some 2⟩ : DiffResult) ∈
      (createDiffsOpt hashCompare [] (.dir false [("one", Node.file "h1" 1)])
        (some (.dir false [("one", Node.file "h2" 2)]))).1 ∧
    DiffResult.consistent
      ⟨.modify, ["one"], some (.str "h1"), some 1, some (.str "h2"), some 2⟩ :=
  ⟨by decide,
    diff_results_satisfy_constructor_invariants (.dir false [("one", Node.file "h1" 1)])
      (some (.dir false [("one", Node.file "h2" 2)])) []
      ⟨.modify, ["one"], some (.str "h1"), some 1, some (.str "h2"), some 2⟩ (by decide)⟩

/-- C5: during one offsite backup run, a pool write at the content-addressed
path `hash[0:2]/hash[2:4]/hash` happens iff the hash is neither in the prior
offsite snapshot's file-hash set nor already scheduled earlier in the run,
and for any hash at most one pool entry is written — exactly one when some
add/modify file diff carries a hash that is new to the offsite store. -/
theorem offsite_pool_dedup (snapshot : Node) (diffs : List OffsiteFileDiff) (h : String) :
    ((offsitePoolWrites snapshot diffs).count (poolPath h) =
      if h ∈ snapshot.fileHashes ∨ ¬∃ d ∈ diffs, d.pathIsFile = true ∧ d.this_hash = h
      then 0 else 1) ∧
    (poolPath h ∈ offsitePoolWrites snapshot diffs ↔
      h ∉ snapshot.fileHashes ∧ ∃ d ∈ diffs, d.pathIsFile = true ∧ d.this_hash = h) := by
  have hcount : (offsitePoolWrites snapshot diffs).count (poolPath h) =
      (diffsToProcess snapshot.fileHashes diffs).countP (fun d => d.this_hash == h) := by
    rw [offsitePoolWrites, List.count, List.countP_map]
    refine List.countP_congr (fun d _ => ?_)
    simp [Function.comp, poolPath_inj]
  have hform := countP_diffsToProcess h diffs snapshot.fileHashes
  constructor
  · rw [hcount, hform]
    by_cases h1 : h ∈ snapshot.fileHashes
    · simp [h1]
    · by_cases h2 : ∃ d ∈ diffs, d.pathIsFile = true ∧ d.this_hash = h
      · simp [h1, h2]
      · simp [h1, h2]
  · rw [← List.count_pos_iff, hcount, hform]
    by_cases h1 : h ∈ snapshot.fileHashes
    · simp [h1]
    · by_cases h2 : ∃ d ∈ diffs, d.pathIsFile = true ∧ d.this_hash = h
      · simp [h1, h2]
      · simp [h1, h2]

/-- C7, counterexample: the claim says the written `index.json` list is
globally sorted by path (every adjacent pair non-decreasing). The code sorts
each operation bucket separately and writes the buckets in dictionary order
`remove`, `add`, `modify` (`Common.py:371-376`, `Offsite.py:375-381`): a run
that removes `z` and adds `a` writes `[remove z, add a]`, whose adjacent
paths are strictly decreasing. -/
theorem index_global_sort_counterexample :
    buildIndexDiffs (groupDiffs (snapshotDiff (.dir false [("a", .file "ha" 1)])
        (.dir false [("z", .file "hz" 2)]))) =
      [⟨.remove, ["z"], none, none, some (.str "hz"), some 2⟩,
       ⟨.add, ["a"], some (.str "ha"), some 1, none, none⟩] ∧
    ¬ List.Chain' (fun d1 d2 => pyStrLe d1.pathStr d2.pathStr = true)
      (buildIndexDiffs (groupDiffs (snapshotDiff (.dir false [("a", .file "ha" 1)])
        (.dir false [("z", .file "hz" 2)])))) := by
  have hgroup : groupDiffs (snapshotDiff (.dir false [("a", .file "ha" 1)])
      (.dir false [("z", .file "hz" 2)])) =
      ⟨[⟨.remove, ["z"], none, none, some (.str "hz"), some 2⟩],
       [⟨.add, ["a"], some (.str "ha"), some 1, none, none⟩], []⟩ := rfl
  have hbuild : buildIndexDiffs (groupDiffs (snapshotDiff (.dir false [("a", .file "ha" 1)])
      (.dir false [("z", .file "hz" 2)]))) =
      [⟨.remove, ["z"], none, none, some (.str "hz"), some 2⟩,
       ⟨.add, ["a"], some (.str "ha"), some 1, none, none⟩] := by
    rw [hgroup]
    simp [buildIndexDiffs, sortByPathStr]
  refine ⟨hbuild, ?_⟩
  rw [hbuild]
  simp only [List.chain'_cons, List.chain'_singleton, and_true]
  decide

/-- C7, amended: the `index.json` record list written by a backup run is the
diff list grouped by operation in the fixed order `remove`, `add`, `modify`
(the buckets of `Common.CalculateDiffs`), with each group sorted by path
string: within each group every adjacent pair of records has non-decreasing
paths, and each sorted group is a permutation of its bucket. -/
theorem index_sorted_within_operation_groups (l : List DiffResult) :
    buildIndexDiffs (groupDiffs l) =
      sortByPathStr (l.filter (fun d => d.operation == DiffOperation.remove)) ++
      sortByPathStr (l.filter (fun d => d.operation == DiffOperation.add)) ++
      sortByPathStr (l.filter (fun d => d.operation == DiffOperation.modify)) ∧
    ∀ m : List DiffResult,
      (sortByPathStr m).Pairwise (fun d1 d2 => pyStrLe d1.pathStr d2.pathStr = true) ∧
      List.Perm (sortByPathStr m) m := by
  constructor
  · have hgroups : ∀ l : List DiffResult,
        (groupDiffs l).removeDiffs = l.filter (fun d => d.operation == DiffOperation.remove) ∧
        (groupDiffs l).addDiffs = l.filter (fun d => d.operation == DiffOperation.add) ∧
        (groupDiffs l).modifyDiffs = l.filter (fun d => d.operation == DiffOperation.modify) := by
      intro l
      induction l with
      | nil => simp [groupDiffs]
      | cons d rest ih =>
        rcases hop : d.operation with _ | _ | _ <;>
          simp [groupDiffs, hop, List.filter_cons, ih.1, ih.2.1, ih.2.2]
    obtain ⟨h1, h2, h3⟩ := hgroups l
    rw [buildIndexDiffs, h1, h2, h3]
  · intro m
    constructor
    · have := List.sorted_mergeSort
        (fun d1 d2 d3 : DiffResult => pyStrLe_trans d1.pathStr d2.pathStr d3.pathStr)
        (fun d1 d2 : DiffResult => pyStrLe_total d1.pathStr d2.pathStr) m
      simpa [sortByPathStr] using this
    · exact List.mergeSort_perm m _

/-- C8: offsite `Restore` fails with an error — before any local write —
when the parsed offsite directory listing contains no primary directory or
more than one; with exactly one primary, the replay set is the primary
followed by every directory that sorts at or after it, in sorted order
(`Offsite.py:767-807`; the selection happens in the preprocessing phase,
before any instruction runs). -/
theorem restore_replay_set_selection (entries : List OffsiteDirEntry) :
    (entries.countP (·.isPrimary) = 0 → ∃ msg, restoreReplaySet entries = .error msg) ∧
    (1 < entries.countP (·.isPrimary) → ∃ msg, restoreReplaySet entries = .error msg) ∧
    (entries.countP (·.isPrimary) = 1 →
      ∀ eP ∈ entries, eP.isPrimary = true →
      ∃ l, restoreReplaySet entries = .ok l ∧ l.head? = some eP.name ∧
        l.Pairwise (fun x y => pyStrLe x y = true) ∧
        (∀ x ∈ l, (∃ e ∈ entries, e.name = x) ∧ pyStrLe eP.name x = true) ∧
        (∀ e ∈ entries, pyStrLe eP.name e.name = true → e.name ∈ l)) := by
  have hperm := allDirectories_perm entries
  have hcount : (allDirectories entries).countP (·.isPrimary) =
      entries.countP (·.isPrimary) := hperm.countP_eq _
  have hlen : (primaryIndexesFrom 0 (allDirectories entries)).length =
      entries.countP (·.isPrimary) := by
    rw [primaryIndexesFrom_length, hcount]
  refine ⟨?_, ?_, ?_⟩
  · -- no primary: error (also when the listing itself is empty)
    intro h0
    by_cases hemp : entries.isEmpty
    · exact ⟨"No directories were found.", by rw [restoreReplaySet, if_pos hemp]⟩
    · have hnil : primaryIndexesFrom 0 (allDirectories entries) = [] :=
        List.eq_nil_of_length_eq_zero (by rw [hlen, h0])
      exact ⟨"No primary directories were found.", by simp [restoreReplaySet, hemp, hnil]⟩
  · -- several primaries: error
    intro h1
    have hne : entries ≠ [] := by
      intro he
      rw [he] at h1
      simp at h1
    have hE : ¬ entries.isEmpty = true := by
      simpa [List.isEmpty_iff] using hne
    rcases hpi : primaryIndexesFrom 0 (allDirectories entries) with _ | ⟨a, _ | ⟨b, prest⟩⟩
    · rw [hpi] at hlen
      simp at hlen
      omega
    · rw [hpi] at hlen
      simp at hlen
      omega
    · exact ⟨"Multiple primary directories were found.", by simp [restoreReplaySet, hE, hpi]⟩
  · -- exactly one primary: the replay set
    intro h1 eP hmem hprim
    have hE : ¬ entries.isEmpty = true := by
      intro hE
      rw [List.isEmpty_iff.1 hE] at hmem
      simp at hmem
    have hlen1 : (primaryIndexesFrom 0 (allDirectories entries)).length = 1 := by
      rw [hlen, h1]
    rcases hpi : primaryIndexesFrom 0 (allDirectories entries) with _ | ⟨i, rest0⟩
    · rw [hpi] at hlen1
      simp at hlen1
    · have hrest0 : rest0 = [] := by
        rw [hpi] at hlen1
        simpa using hlen1
      subst hrest0
      obtain ⟨i0, x, rest, hji, hdrop, hxprim⟩ := primaryIndexesFrom_singleton hpi
      have hdropi : (allDirectories entries).drop i = x :: rest := by
        rw [show i = i0 by omega]
        exact hdrop
      have hxall : x ∈ allDirectories entries :=
        List.mem_of_mem_drop (hdropi ▸ List.mem_cons_self x rest)
      have hePall : eP ∈ allDirectories entries := hperm.mem_iff.2 hmem
      have hxeP : x = eP :=
        eq_of_countP_le_one (le_of_eq (by rw [hcount, h1])) hxall hePall hxprim hprim
      rw [hxeP] at hdropi
      have hpw := allDirectories_names_pairwise entries
      have hdp : ((allDirectories entries).drop i).Pairwise
          (fun a b => pyStrLe a.name b.name = true) :=
        hpw.sublist (List.drop_sublist i _)
      refine ⟨((allDirectories entries).drop i).map OffsiteDirEntry.name,
        by simp [restoreReplaySet, hE, hpi], ?_, ?_, ?_, ?_⟩
      · rw [hdropi]
        simp
      · exact List.pairwise_map.2 hdp
      · intro xna hx
        simp only [List.mem_map] at hx
        obtain ⟨y, hy, rfl⟩ := hx
        refine ⟨⟨y, hperm.mem_iff.1 (List.mem_of_mem_drop hy), rfl⟩, ?_⟩
        rw [hdropi] at hy
        rcases List.mem_cons.1 hy with rfl | hy'
        · exact pyStrLe_refl _
        · have hdp' := hdropi ▸ hdp
          exact (List.pairwise_cons.1 hdp').1 y hy'
      · intro e he hle
        have heall : e ∈ allDirectories entries := hperm.mem_iff.2 he
        have hmem2 : e ∈ (allDirectories entries).take i ++ (allDirectories entries).drop i := by
          rw [List.take_append_drop]
          exact heall
        have hpw2 : ((allDirectories entries).take i ++
            (allDirectories entries).drop i).Pairwise
            (fun a b => pyStrLe a.name b.name = true) := by
          rw [List.take_append_drop]
          exact hpw
        rcases List.mem_append.1 hmem2 with htk | hdr
        · have hcross := (List.pairwise_append.1 hpw2).2.2 e htk eP
            (hdropi ▸ List.mem_cons_self eP rest)
          have hname : e.name = eP.name := pyStrLe_antisymm _ _ hcross hle
          exact List.mem_map.2 ⟨eP, hdropi ▸ List.mem_cons_self eP rest, hname.symm⟩
        · exact List.mem_map.2 ⟨e, hdr, rfl⟩

/-- Witness for `restore_replay_set_selection`: one delta sorting before the
single primary; the replay set starts at the primary. -/
theorem restore_replay_set_selection_witness :
    ([(⟨"b.delta", false⟩ : OffsiteDirEntry), ⟨"c", true⟩].countP (·.isPrimary) = 1) ∧
    (∃ l, restoreReplaySet [(⟨"b.delta", false⟩ : OffsiteDirEntry), ⟨"c", true⟩] = .ok l ∧
      l.head? = some "c" ∧
      l.Pairwise (fun x y => pyStrLe x y = true) ∧
      (∀ x ∈ l, (∃ e ∈ [(⟨"b.delta", false⟩ : OffsiteDirEntry), ⟨"c", true⟩], e.name = x) ∧
        pyStrLe "c" x = true) ∧
      (∀ e ∈ [(⟨"b.delta", false⟩ : OffsiteDirEntry), ⟨"c", true⟩],
        pyStrLe "c" e.name = true → e.name ∈ l)) :=
  ⟨by decide,
    (restore_replay_set_selection [⟨"b.delta", false⟩, ⟨"c", true⟩]).2.2 (by decide)
      ⟨"c", true⟩ (by decide) (by decide)⟩

/-- C10: when the computed diff between the local snapshot and the
destination snapshot is empty, `Mirror.Backup` returns before the cleanup
and persist phases (`Mirror.py:214-215`): no destination operation is
emitted and any destination state — including the persisted snapshot file —
is left unchanged. -/
theorem mirror_backup_empty_diff_no_ops (a b : Node) (ba : Option Nat)
    (items : List LocalItem) (force : Bool) (cw fw : List (List String))
    (st : DestState) (hempty : snapshotDiff a b = []) :
    mirrorBackupOps (groupDiffs (snapshotDiff a b)) ba items force cw fw = [] ∧
    runMirrorBackup (groupDiffs (snapshotDiff a b)) ba items force cw fw st = st := by
  rw [hempty]
  exact ⟨rfl, rfl⟩

/-- Witness for `mirror_backup_empty_diff_no_ops`: identical snapshots have
an empty diff, and the destination state is untouched. -/
theorem mirror_backup_empty_diff_no_ops_witness :
    snapshotDiff (Node.dir false [("one", Node.file "h1" 5)])
      (Node.dir false [("one", Node.file "h1" 5)]) = [] ∧
    mirrorBackupOps (groupDiffs (snapshotDiff (Node.dir false [("one", Node.file "h1" 5)])
      (Node.dir false [("one", Node.file "h1" 5)]))) (some 1000) [] false [] [] = [] ∧
    runMirrorBackup (groupDiffs (snapshotDiff (Node.dir false [("one", Node.file "h1" 5)])
      (Node.dir false [("one", Node.file "h1" 5)]))) (some 1000) [] false [] []
      ⟨[["Content"]], 7⟩ = ⟨[["Content"]], 7⟩ :=
  ⟨rfl,
    (mirror_backup_empty_diff_no_ops (Node.dir false [("one", Node.file "h1" 5)])
      (Node.dir false [("one", Node.file "h1" 5)]) (some 1000) [] false [] []
      ⟨[["Content"]], 7⟩ (by decide)).1,
    (mirror_backup_empty_diff_no_ops (Node.dir false [("one", Node.file "h1" 5)])
      (Node.dir false [("one", Node.file "h1" 5)]) (some 1000) [] false [] []
      ⟨[["Content"]], 7⟩ (by decide)).2⟩

end Backup
